import Mathlib

/-!
# Verification of the Runestone codec library

Shallow embedding of the Runes runestone encoder/decoder exposed by
`src/index.ts` (`encodeRunestone`, `tryDecodeRunestone`, `isRunestone`).

The repository's `src/` directory holds only `index.ts`, which is glue over a
deeper protocol library (`Runestone.encipher`/`Runestone.decipher`,
`SpacedRune`, `Rune.commitment`, the varint codec, …) that is imported but not
present.  Definitions that embed code from `index.ts` are translated directly
from that file; every component whose source is missing is modelled from the
specification (`spec.md` §4.B–§4.H) and carries a doc comment starting with
`Modelled from the spec:` naming the missing piece.

Conventions of the embedding:
* TypeScript `number`/`bigint` inputs are `Int` (so negative inputs are
  representable); wire-level unsigned 128-bit quantities are `Nat` with
  explicit bound checks against the `uNMAX` constants.
* TypeScript strings are lists of Unicode code points (`List Nat`); the
  UTF-16 length used by `String.prototype.length` is computed by `utf16Len`.
* Fallible TypeScript code (functions that `throw`) returns `Except String`.
* A Bitcoin output script is a list of parsed instructions (`Instr`); the
  byte-level script serialization is outside the embedded library (it lives in
  the missing `bitcoinjs` style helpers), and the decoder only ever
  concatenates data pushes, so the instruction level is the faithful boundary.
-/

namespace Runestone

/-- `u8.MAX` from the integer library: `2^8 - 1`. -/
def u8MAX : Nat := 255

/-- `u32.MAX` from the integer library: `2^32 - 1`. -/
def u32MAX : Nat := 4294967295

/-- `u64.MAX` from the integer library: `2^64 - 1`. -/
def u64MAX : Nat := 18446744073709551615

/-- `u128.MAX` from the integer library: `2^128 - 1`. -/
def u128MAX : Nat := 340282366920938463463374607431768211455

theorem u8MAX_eq : u8MAX = 2 ^ 8 - 1 := by decide

theorem u32MAX_eq : u32MAX = 2 ^ 32 - 1 := by norm_num [u32MAX]

theorem u64MAX_eq : u64MAX = 2 ^ 64 - 1 := by norm_num [u64MAX]

theorem u128MAX_eq : u128MAX = 2 ^ 128 - 1 := by norm_num [u128MAX]

/-- `MAX_DIVISIBILITY` from `src/constants` (value fixed by the spec, §6). -/
def MAX_DIVISIBILITY : Nat := 38

/-! ## Varint codec

Modelled from the spec, §4.C: the LEB128-style codec of the missing
`src/varint` module. -/

/-- Fuel-indexed worker for `encodeVarint`; the fuel (never less than the
value) only forces structural recursion, the value shrinks by a factor 128
every step. -/
def encodeVarintAux : Nat → Nat → List Nat
  | 0, n => [n % 128]
  | fuel + 1, n =>
    if n < 128 then [n]
    else (n % 128 + 128) :: encodeVarintAux fuel (n / 128)

/-- Modelled from the spec: varint encoding of a `u128`.  While `v ≥ 0x80`,
emit `(v & 0x7F) | 0x80` and shift right by 7; the final byte has the high bit
clear. -/
def encodeVarint (n : Nat) : List Nat :=
  encodeVarintAux n n

theorem encodeVarintAux_congr :
    ∀ f1 n f2, n ≤ f1 → n ≤ f2 → encodeVarintAux f1 n = encodeVarintAux f2 n := by
  intro f1
  induction f1 with
  | zero =>
    intro n f2 h1 _
    have hn : n = 0 := by omega
    subst hn
    cases f2 with
    | zero => rfl
    | succ f => simp [encodeVarintAux]
  | succ f1p ih =>
    intro n f2 h1 h2
    cases f2 with
    | zero =>
      have hn : n = 0 := by omega
      subst hn
      simp [encodeVarintAux]
    | succ f2p =>
      rw [encodeVarintAux, encodeVarintAux]
      by_cases h : n < 128
      · rw [if_pos h, if_pos h]
      · rw [if_neg h, if_neg h]
        have hdiv : n / 128 < n := Nat.div_lt_self (by omega) (by omega)
        rw [ih (n / 128) f2p (by omega) (by omega)]

/-- The defining unfolding of `encodeVarint`. -/
theorem encodeVarint_eq (n : Nat) :
    encodeVarint n
      = if n < 128 then [n] else (n % 128 + 128) :: encodeVarint (n / 128) := by
  rw [encodeVarint]
  cases hn : n with
  | zero => simp [encodeVarintAux]
  | succ m =>
    rw [encodeVarintAux]
    by_cases h : m + 1 < 128
    · rw [if_pos h, if_pos h]
    · rw [if_neg h, if_neg h]
      have hdiv : (m + 1) / 128 < m + 1 := Nat.div_lt_self (by omega) (by omega)
      rw [encodeVarint,
        encodeVarintAux_congr m ((m + 1) / 128) ((m + 1) / 128) (by omega) le_rfl]

/-- Modelled from the spec: varint decoding.  Reads up to 19 bytes; on the
19th byte (index 18) the payload bits above the 128-bit range must be zero,
otherwise the `varint` flaw; premature end of stream is also the `varint`
flaw.  Returns the value and the unconsumed rest of the stream. -/
def decodeVarintAux : List Nat → Nat → Nat → Option (Nat × List Nat)
  | [], _, _ => none
  | b :: rest, i, acc =>
    if i > 18 then none
    else if i = 18 ∧ (b % 128) / 4 ≠ 0 then none
    else
      let acc₂ := acc + b % 128 * 2 ^ (7 * i)
      if b < 128 then some (acc₂, rest)
      else decodeVarintAux rest (i + 1) acc₂

/-- Modelled from the spec: decode one varint from the front of a byte
stream. -/
def decodeVarint (bs : List Nat) : Option (Nat × List Nat) :=
  decodeVarintAux bs 0 0

theorem encodeVarint_ne_nil (n : Nat) : encodeVarint n ≠ [] := by
  rw [encodeVarint_eq]
  split <;> simp

theorem encodeVarint_length_pos (n : Nat) : 0 < (encodeVarint n).length := by
  have := encodeVarint_ne_nil n
  cases h : encodeVarint n with
  | nil => exact absurd h this
  | cons a l => simp

theorem decodeVarintAux_encode (n : Nat) :
    ∀ (i acc : Nat) (rest : List Nat), i ≤ 18 → n < 2 ^ (128 - 7 * i) →
      decodeVarintAux (encodeVarint n ++ rest) i acc
        = some (acc + n * 2 ^ (7 * i), rest) := by
  induction n using Nat.strong_induction_on with
  | _ n ih =>
    intro i acc rest hi hn
    have hsmall : i = 18 → n < 4 := by
      intro h18
      subst h18
      simpa using hn
    rw [encodeVarint_eq]
    by_cases h : n < 128
    · simp only [if_pos h, List.cons_append, List.nil_append]
      simp only [decodeVarintAux]
      rw [if_neg (by omega : ¬ i > 18)]
      rw [if_neg (by
        rintro ⟨h18, hne⟩
        have := hsmall h18
        omega)]
      rw [if_pos h]
      rw [Nat.mod_eq_of_lt h]
    · simp only [if_neg h, List.cons_append]
      simp only [decodeVarintAux]
      have hi17 : i ≤ 17 := by
        by_contra hgt
        have := hsmall (by omega)
        omega
      rw [if_neg (by omega : ¬ i > 18)]
      rw [if_neg (by
        rintro ⟨h18, _⟩
        omega)]
      rw [if_neg (by omega : ¬ (n % 128 + 128 < 128))]
      have hmod : (n % 128 + 128) % 128 = n % 128 := by omega
      rw [hmod]
      have hrec : n / 128 < 2 ^ (128 - 7 * (i + 1)) := by
        have h2 : (128 - 7 * i) = (128 - 7 * (i + 1)) + 7 := by omega
        rw [h2, pow_add] at hn
        apply Nat.div_lt_of_lt_mul
        calc n < 2 ^ (128 - 7 * (i + 1)) * 2 ^ 7 := hn
          _ = 128 * 2 ^ (128 - 7 * (i + 1)) := by
            rw [mul_comm]
            norm_num
      rw [ih (n / 128) (Nat.div_lt_self (by omega) (by omega)) (i + 1)
        (acc + n % 128 * 2 ^ (7 * i)) rest (by omega) hrec]
      have hpow : 2 ^ (7 * (i + 1)) = 2 ^ (7 * i) * 128 := by
        rw [show 7 * (i + 1) = 7 * i + 7 by ring, pow_add]
        norm_num
      have harith : acc + n % 128 * 2 ^ (7 * i) + n / 128 * 2 ^ (7 * (i + 1))
          = acc + n * 2 ^ (7 * i) := by
        rw [hpow]
        calc acc + n % 128 * 2 ^ (7 * i) + n / 128 * (2 ^ (7 * i) * 128)
            = acc + (n % 128 + 128 * (n / 128)) * 2 ^ (7 * i) := by ring
          _ = acc + n * 2 ^ (7 * i) := by rw [Nat.mod_add_div]
      rw [harith]

/-- Round trip of the varint codec: decoding an encoded `u128` recovers the
value and leaves the rest of the stream untouched. -/
theorem decodeVarint_encodeVarint (n : Nat) (rest : List Nat)
    (hn : n ≤ u128MAX) :
    decodeVarint (encodeVarint n ++ rest) = some (n, rest) := by
  have h := decodeVarintAux_encode n 0 0 rest (by omega)
    (by rw [u128MAX_eq] at hn; norm_num at hn ⊢; omega)
  simpa [decodeVarint] using h

/-- Modelled from the spec: decode a payload as a sequence of varints
(§4.E, "Decode payload as a sequence of varints"); `none` is the `varint`
flaw.  Fuel-indexed so the recursion is structural; the fuel is the byte
count, which bounds the number of varints. -/
def decodeAllAux : Nat → List Nat → Option (List Nat)
  | _, [] => some []
  | 0, _ :: _ => none
  | fuel + 1, b :: rest =>
    (decodeVarint (b :: rest)).bind fun p =>
      (decodeAllAux fuel p.2).map fun l => p.1 :: l

/-- Modelled from the spec: decode an entire payload as varints. -/
def decodeAllVarints (bs : List Nat) : Option (List Nat) :=
  decodeAllAux bs.length bs

/-- Serialization of a list of integers as consecutive varints (the payload
layout of §4.G). -/
def serializeInts : List Nat → List Nat
  | [] => []
  | n :: rest => encodeVarint n ++ serializeInts rest

theorem decodeAllAux_serialize (l : List Nat) :
    ∀ fuel, (∀ x ∈ l, x ≤ u128MAX) → (serializeInts l).length ≤ fuel →
      decodeAllAux fuel (serializeInts l) = some l := by
  induction l with
  | nil =>
    intro fuel _ _
    cases fuel <;> rfl
  | cons n rest ih =>
    intro fuel hbound hlen
    have hnb : n ≤ u128MAX := hbound n (by simp)
    obtain ⟨e, es, henc⟩ : ∃ e es, encodeVarint n = e :: es := by
      cases h : encodeVarint n with
      | nil => exact absurd h (encodeVarint_ne_nil n)
      | cons a l => exact ⟨a, l, rfl⟩
    have hser : serializeInts (n :: rest)
        = e :: (es ++ serializeInts rest) := by
      simp [serializeInts, henc]
    rw [hser] at hlen ⊢
    obtain ⟨f, rfl⟩ : ∃ f, fuel = f + 1 := by
      cases fuel with
      | zero => simp at hlen
      | succ f => exact ⟨f, rfl⟩
    rw [decodeAllAux]
    have hdec : decodeVarint (e :: (es ++ serializeInts rest))
        = some (n, serializeInts rest) := by
      have := decodeVarint_encodeVarint n (serializeInts rest) hnb
      rwa [henc, List.cons_append] at this
    rw [hdec]
    simp only [Option.some_bind]
    rw [ih f (fun x hx => hbound x (by simp [hx])) (by simp at hlen; omega)]
    rfl

/-- Round trip of the whole-payload varint codec. -/
theorem decodeAllVarints_serialize (l : List Nat)
    (hbound : ∀ x ∈ l, x ≤ u128MAX) :
    decodeAllVarints (serializeInts l) = some l :=
  decodeAllAux_serialize l (serializeInts l).length hbound le_rfl

/-! ## Rune name codec

Modelled from the spec, §4.B and §3: the missing `src/rune` and
`src/spacedrune` modules.  Letters are represented as values `0..25`; strings
are lists of Unicode code points (`A` = 65, the spacer `•` = 0x2022). -/

/-- Value of a rune name given its letters least-significant (rightmost)
first.  Inverse of `nameLF` below. -/
def valLF : List Nat → Nat
  | [] => 0
  | [c] => c
  | c :: rest => c + 26 * (valLF rest + 1)

/-- Modelled from the spec: base-26 letters of a rune's numeric value,
least-significant first — repeatedly take `n % 26` as a letter then set
`n := n / 26 - 1`, stopping when that would go below zero (§4.B). -/
def nameLF (n : Nat) : List Nat :=
  if h : n < 26 then [n]
  else n % 26 :: nameLF (n / 26 - 1)
  decreasing_by
    have := Nat.div_lt_self (show 0 < n by omega) (show 1 < 26 by omega)
    omega

theorem nameLF_valLF (l : List Nat) (hne : l ≠ [])
    (hlt : ∀ c ∈ l, c < 26) : nameLF (valLF l) = l := by
  induction l with
  | nil => exact absurd rfl hne
  | cons c rest ih =>
    cases rest with
    | nil =>
      have hc : c < 26 := hlt c (by simp)
      rw [valLF, nameLF]
      simp [hc]
    | cons c2 rest2 =>
      have hc : c < 26 := hlt c (by simp)
      have hval : valLF (c :: c2 :: rest2)
          = c + 26 * (valLF (c2 :: rest2) + 1) := rfl
      rw [hval, nameLF]
      have hge : ¬ (c + 26 * (valLF (c2 :: rest2) + 1) < 26) := by omega
      rw [dif_neg hge]
      have hmod : (c + 26 * (valLF (c2 :: rest2) + 1)) % 26 = c := by omega
      have hdiv : (c + 26 * (valLF (c2 :: rest2) + 1)) / 26 - 1
          = valLF (c2 :: rest2) := by omega
      rw [hmod, hdiv, ih (List.cons_ne_nil c2 rest2)
        (fun x hx => hlt x (by simp [hx]))]

/-- Modelled from the spec: parse the code points of a spaced rune name into
letters (values `0..25`) each paired with whether a spacer `•` follows it.
Rejects any character other than `A`–`Z` and `•`, a leading or trailing
spacer, and a doubled spacer: a spacer must sit between two letters, since a
spacer bit beyond the name length is invalid (§3). -/
def parseSR : List Nat → Option (List (Nat × Bool))
  | [] => some []
  | [c] => if 65 ≤ c ∧ c ≤ 90 then some [(c - 65, false)] else none
  | c :: c2 :: rest =>
    if 65 ≤ c ∧ c ≤ 90 then
      if c2 = 8226 then
        match rest with
        | [] => none
        | r :: rs => (parseSR (r :: rs)).map fun l => (c - 65, true) :: l
      else (parseSR (c2 :: rest)).map fun l => (c - 65, false) :: l
    else none

/-- Spacer bitmask from parsed letter/spacer pairs: bit `i` is the spacer
flag of letter `i` (§3). -/
def maskOf : List (Nat × Bool) → Nat
  | [] => 0
  | (_, b) :: rest => (if b then 1 else 0) + 2 * maskOf rest

/-- Render parsed letter/spacer pairs back to code points. -/
def renderPairs : List (Nat × Bool) → List Nat
  | [] => []
  | (c, b) :: rest => (c + 65) :: ((if b then [8226] else []) ++ renderPairs rest)

/-- Modelled from the spec: display a rune name (letters most-significant
first, values `0..25`) with a spacer after letter `i` whenever bit `i` of the
mask is set and a letter follows (§3: a separator renders between letters `i`
and `i + 1`). -/
def renderSpacedAux : List Nat → Nat → List Nat
  | [], _ => []
  | [c], _ => [c + 65]
  | c :: c2 :: rest, mask =>
    (c + 65) :: ((if mask % 2 = 1 then [8226] else [])
      ++ renderSpacedAux (c2 :: rest) (mask / 2))

/-- Modelled from the spec: `SpacedRune.toString` — render a rune value with
a spacer bitmask. -/
def renderSpaced (rv mask : Nat) : List Nat :=
  renderSpacedAux (nameLF rv).reverse mask

/-- Modelled from the spec: `Rune.toString` — the plain base-26 name. -/
def renderName (rv : Nat) : List Nat :=
  (nameLF rv).reverse.map fun c => c + 65




theorem parseSR_cons_ne_nil (x : Nat) (xs : List Nat) (l : List (Nat × Bool))
    (h : parseSR (x :: xs) = some l) : l ≠ [] := by
  intro hl
  subst hl
  rw [parseSR.eq_def] at h
  cases xs with
  | nil =>
    dsimp only at h
    split_ifs at h <;> simp_all
  | cons c2 rest =>
    dsimp only at h
    split_ifs at h with h1 h2
    · cases rest with
      | nil => simp_all
      | cons r rs => simp_all [Option.map_eq_some']
    · simp_all [Option.map_eq_some']

theorem render_parseSR (s : List Nat) : ∀ ps, parseSR s = some ps →
    renderPairs ps = s ∧ (∀ p ∈ ps, p.1 < 26) ∧
    renderSpacedAux (ps.map fun p => p.1) (maskOf ps) = renderPairs ps := by
  induction s using parseSR.induct with
  | case1 =>
    intro ps h
    rw [show parseSR [] = some [] from rfl] at h
    cases h
    exact ⟨rfl, by simp, rfl⟩
  | case2 c hc =>
    intro ps h
    rw [parseSR.eq_def] at h
    dsimp only at h
    rw [if_pos hc] at h
    cases h
    refine ⟨?_, ?_, ?_⟩
    · show (c - 65 + 65) :: (([] : List Nat) ++ []) = [c]
      simp
      omega
    · intro p hp
      simp at hp
      subst hp
      simp
      omega
    · rfl
  | case3 c hnc =>
    intro ps h
    rw [parseSR.eq_def] at h
    dsimp only at h
    rw [if_neg hnc] at h
    cases h
  | case4 c hc =>
    intro ps h
    rw [parseSR.eq_def] at h
    dsimp only at h
    rw [if_pos hc, if_pos rfl] at h
    cases h
  | case5 c hc n rest ih =>
    intro ps h
    rw [parseSR.eq_def] at h
    dsimp only at h
    rw [if_pos hc, if_pos rfl] at h
    rw [Option.map_eq_some'] at h
    obtain ⟨l, hl, hps⟩ := h
    subst hps
    obtain ⟨r1, r2, r3⟩ := ih l hl
    have hlne : l ≠ [] := parseSR_cons_ne_nil n rest l hl
    obtain ⟨p0, l0, rfl⟩ : ∃ p0 l0, l = p0 :: l0 := by
      cases l with
      | nil => exact absurd rfl hlne
      | cons p0 l0 => exact ⟨p0, l0, rfl⟩
    refine ⟨?_, ?_, ?_⟩
    · show (c - 65 + 65) :: ([8226] ++ renderPairs (p0 :: l0)) = c :: 8226 :: n :: rest
      rw [List.singleton_append, r1]
      congr 1
      omega
    · intro p hp
      simp only [List.mem_cons] at hp
      rcases hp with hp | hp
      · subst hp
        simp
        omega
      · exact r2 p (by simp [hp])
    · show renderSpacedAux ((c - 65) :: (p0 :: l0).map fun p => p.1)
          (maskOf ((c - 65, true) :: p0 :: l0)) = _
      have hmask : maskOf ((c - 65, true) :: p0 :: l0)
          = 1 + 2 * maskOf (p0 :: l0) := by
        rw [maskOf]
        simp
      rw [hmask]
      show (c - 65 + 65) ::
          ((if (1 + 2 * maskOf (p0 :: l0)) % 2 = 1 then [8226] else [])
            ++ renderSpacedAux ((p0 :: l0).map fun p => p.1)
              ((1 + 2 * maskOf (p0 :: l0)) / 2)) = _
      rw [if_pos (by omega)]
      rw [show (1 + 2 * maskOf (p0 :: l0)) / 2 = maskOf (p0 :: l0) by omega]
      rw [r3]
      rfl
  | case6 c c2 rest hc hb ih =>
    intro ps h
    rw [parseSR.eq_def] at h
    dsimp only at h
    rw [if_pos hc, if_neg hb] at h
    rw [Option.map_eq_some'] at h
    obtain ⟨l, hl, hps⟩ := h
    subst hps
    obtain ⟨r1, r2, r3⟩ := ih l hl
    have hlne : l ≠ [] := parseSR_cons_ne_nil c2 rest l hl
    obtain ⟨p0, l0, rfl⟩ : ∃ p0 l0, l = p0 :: l0 := by
      cases l with
      | nil => exact absurd rfl hlne
      | cons p0 l0 => exact ⟨p0, l0, rfl⟩
    refine ⟨?_, ?_, ?_⟩
    · show (c - 65 + 65) :: ([] ++ renderPairs (p0 :: l0)) = c :: c2 :: rest
      rw [List.nil_append, r1]
      congr 1
      omega
    · intro p hp
      simp only [List.mem_cons] at hp
      rcases hp with hp | hp
      · subst hp
        simp
        omega
      · exact r2 p (by simp [hp])
    · show renderSpacedAux ((c - 65) :: (p0 :: l0).map fun p => p.1)
          (maskOf ((c - 65, false) :: p0 :: l0)) = _
      have hmask : maskOf ((c - 65, false) :: p0 :: l0)
          = 2 * maskOf (p0 :: l0) := by
        rw [maskOf]
        simp
      rw [hmask]
      show (c - 65 + 65) ::
          ((if (2 * maskOf (p0 :: l0)) % 2 = 1 then [8226] else [])
            ++ renderSpacedAux ((p0 :: l0).map fun p => p.1)
              ((2 * maskOf (p0 :: l0)) / 2)) = _
      rw [if_neg (by omega)]
      rw [show (2 * maskOf (p0 :: l0)) / 2 = maskOf (p0 :: l0) by omega]
      rw [r3]
      rfl
  | case7 c c2 rest hnc =>
    intro ps h
    rw [parseSR.eq_def] at h
    dsimp only at h
    rw [if_neg hnc] at h
    cases h

/-- Modelled from the spec: `SpacedRune.fromString` — parse a spaced rune
name (missing `src/spacedrune`) into the rune's numeric value and the spacer
bitmask.  Errors on an empty name, any character other than `A`–`Z` and the
spacer `•`, a spacer not sitting between two letters, and a value exceeding
`u128.MAX` (the rune value is computed with checked 128-bit arithmetic). -/
def spacedRuneFromString (s : List Nat) : Except String (Nat × Nat) :=
  match parseSR s with
  | none => .error "Invalid rune name"
  | some [] => .error "Empty rune name"
  | some (p :: ps) =>
    let v := valLF (((p :: ps).map fun q => q.1).reverse)
    if v ≤ u128MAX then .ok (v, maskOf (p :: ps))
    else .error "Rune value overflow"

/-- Rendering inverts `spacedRuneFromString`: the decoded spaced name prints
back to the exact input string. -/
theorem renderSpaced_fromString (s : List Nat) (v mask : Nat)
    (h : spacedRuneFromString s = .ok (v, mask)) : renderSpaced v mask = s := by
  rw [spacedRuneFromString] at h
  cases hp : parseSR s with
  | none => rw [hp] at h; cases h
  | some ps =>
    rw [hp] at h
    cases ps with
    | nil => cases h
    | cons p0 ps0 =>
      dsimp only at h
      split_ifs at h with hv
      cases h
      obtain ⟨r1, r2, r3⟩ := render_parseSR s (p0 :: ps0) hp
      rw [renderSpaced]
      have hrev : (nameLF (valLF (((p0 :: ps0).map fun q => q.1).reverse))).reverse
          = (p0 :: ps0).map fun q => q.1 := by
        rw [nameLF_valLF _ (by simp) (by
          intro c hc
          rw [List.mem_reverse] at hc
          simp only [List.mem_map] at hc
          obtain ⟨q, hq, rfl⟩ := hc
          exact r2 q hq)]
        exact List.reverse_reverse _
      rw [hrev, r3, r1]

theorem maskOf_lt (ps : List (Nat × Bool)) : maskOf ps < 2 ^ ps.length := by
  induction ps with
  | nil => simp [maskOf]
  | cons p rest ih =>
    obtain ⟨c, b⟩ := p
    rw [maskOf]
    simp only [List.length_cons, pow_succ]
    cases b <;> simp <;> omega

theorem valLF_ge (l : List Nat) : 2 ≤ l.length → 26 ^ (l.length - 1) ≤ valLF l := by
  induction l with
  | nil => simp
  | cons c rest ih =>
    intro hlen
    cases rest with
    | nil => simp at hlen
    | cons d rest2 =>
      cases rest2 with
      | nil =>
        rw [show valLF (c :: [d]) = c + 26 * (valLF [d] + 1) from rfl]
        simp [valLF]
        omega
      | cons e rest3 =>
        have hih := ih (by simp)
        rw [show valLF (c :: d :: e :: rest3)
            = c + 26 * (valLF (d :: e :: rest3) + 1) from rfl]
        have h1 : (26 : Nat) ^ (List.length (c :: d :: e :: rest3) - 1)
            = 26 * 26 ^ (List.length (d :: e :: rest3) - 1) := by
          simp only [List.length_cons]
          rw [show rest3.length + 1 + 1 + 1 - 1 = (rest3.length + 1 + 1 - 1) + 1 by omega]
          rw [pow_succ]
          ring
        rw [h1]
        simp only [List.length_cons] at hih ⊢
        nlinarith [hih]

/-- The spacer bitmask returned by `spacedRuneFromString` always fits `u32`
(a name whose value fits `u128` has at most 28 letters, so the mask has no
bit at index 27 or above). -/
theorem spacedRuneFromString_mask_le (s : List Nat) (v mask : Nat)
    (h : spacedRuneFromString s = .ok (v, mask)) : mask ≤ u32MAX := by
  rw [spacedRuneFromString] at h
  cases hp : parseSR s with
  | none => rw [hp] at h; cases h
  | some ps =>
    rw [hp] at h
    cases ps with
    | nil => cases h
    | cons p0 ps0 =>
      dsimp only at h
      split_ifs at h with hv
      cases h
      have hmask := maskOf_lt (p0 :: ps0)
      by_cases hlen : (p0 :: ps0).length ≤ 28
      · have : (2 : Nat) ^ (p0 :: ps0).length ≤ 2 ^ 28 :=
          Nat.pow_le_pow_right (by omega) hlen
        have h28 : (2 : Nat) ^ 28 ≤ u32MAX := by norm_num [u32MAX]
        exact Nat.le_of_lt (lt_of_lt_of_le hmask (le_trans this h28))
      · exfalso
        have hlen2 : 2 ≤ (((p0 :: ps0).map fun q => q.1).reverse).length := by
          simp only [List.length_cons] at hlen
          simp only [List.length_reverse, List.length_map, List.length_cons]
          omega
        have := valLF_ge (((p0 :: ps0).map fun q => q.1).reverse) hlen2
        have hlen3 : (((p0 :: ps0).map fun q => q.1).reverse).length
            = (p0 :: ps0).length := by simp
        rw [hlen3] at this
        have h26 : (26 : Nat) ^ 28 ≤ 26 ^ ((p0 :: ps0).length - 1) :=
          Nat.pow_le_pow_right (by omega) (by omega)
        have hbig : u128MAX < 26 ^ 28 := by norm_num [u128MAX]
        exact absurd hv (not_le.mpr (lt_of_lt_of_le hbig (le_trans h26 this)))

/-! ## Data model

Mid-level protocol types (the missing `src/flaw`, `src/etching`, `src/terms`,
`src/runeid`, `src/runestone` modules, shapes fixed by spec §3) and the
`RunestoneSpec`/`Cenotaph` surface types of `src/index.ts`. -/

/-- The `Flaw` enum of the missing `src/flaw` module: the ten flaw kinds
enumerated in spec §3. -/
inductive FlawM
  | edictOutput
  | edictRuneId
  | invalidScript
  | opcode
  | supplyOverflow
  | trailingIntegers
  | truncatedField
  | unrecognizedEvenTag
  | unrecognizedFlag
  | varint
  deriving DecidableEq, Repr

/-- `getFlawString` from `src/index.ts` (lines 80–103): the flaw enum's
string name. -/
def getFlawString : FlawM → String
  | .edictOutput => "edict_output"
  | .edictRuneId => "edict_rune_id"
  | .invalidScript => "invalid_script"
  | .opcode => "opcode"
  | .supplyOverflow => "supply_overflow"
  | .trailingIntegers => "trailing_integers"
  | .truncatedField => "truncated_field"
  | .unrecognizedEvenTag => "unrecognized_even_tag"
  | .unrecognizedFlag => "unrecognized_flag"
  | .varint => "varint"

/-- A parsed Bitcoin script instruction: a non-push opcode, a data push, or
an unparseable element (spec §4.D distinguishes exactly these three). -/
inductive Instr
  | op (code : Nat)
  | push (data : List Nat)
  | invalid
  deriving DecidableEq, Repr

/-- `RunestoneTx`: the decoder sees a transaction as its list of output
scripts. -/
structure RunestoneTx where
  vout : List (List Instr)
  deriving DecidableEq, Repr

/-- `Terms` of the missing `src/terms` module (spec §3). -/
structure TermsM where
  amount : Option Nat
  cap : Option Nat
  height : Option Nat × Option Nat
  offset : Option Nat × Option Nat
  deriving DecidableEq, Repr

/-- `Etching` of the missing `src/etching` module (spec §3).  The symbol is
kept as its single code point, which is what the wire format carries. -/
structure EtchingM where
  divisibility : Option Nat
  rune : Option Nat
  spacers : Option Nat
  symbol : Option Nat
  terms : Option TermsM
  premine : Option Nat
  turbo : Bool
  deriving DecidableEq, Repr

/-- An edict with resolved `RuneId` (spec §3). -/
structure EdictM where
  block : Nat
  tx : Nat
  amount : Nat
  output : Nat
  deriving DecidableEq, Repr

/-- The mid-level `Runestone` message (spec §3). -/
structure RunestoneM where
  mint : Option (Nat × Nat)
  pointer : Option Nat
  edicts : List EdictM
  etching : Option EtchingM
  deriving DecidableEq, Repr

/-- The mid-level `Cenotaph` artifact (spec §3): flaw list, optionally the
etched rune value and the mint id. -/
structure CenotaphM where
  flaws : List FlawM
  etching : Option Nat
  mint : Option (Nat × Nat)
  deriving DecidableEq, Repr

/-- The three-way artifact produced by `Runestone.decipher` for a located
payload: a valid runestone or a cenotaph. -/
inductive ArtifactM
  | runestone (r : RunestoneM)
  | cenotaph (c : CenotaphM)
  deriving DecidableEq, Repr

/-- An edict of the `RunestoneSpec` surface type (`src/index.ts` lines
49–56); `id.block` and `amount` are `bigint`, `id.tx` and `output` are
`number`. -/
structure EdictSpec where
  idBlock : Int
  idTx : Int
  amount : Int
  output : Int
  deriving DecidableEq, Repr

/-- The `terms` member of `RuneEtchingSpec` (shape as used by
`src/index.ts` lines 194–221 and produced by lines 269–300). -/
structure TermsSpec where
  amount : Option Int
  cap : Option Int
  height : Option (Option Int × Option Int)
  offset : Option (Option Int × Option Int)
  deriving DecidableEq, Repr

/-- `RuneEtchingSpec` of the missing `src/indexer` module, shape as used by
`src/index.ts` (strings are lists of code points). -/
structure RuneEtchingSpec where
  divisibility : Option Int
  premine : Option Int
  runeName : Option (List Nat)
  symbol : Option (List Nat)
  terms : Option TermsSpec
  turbo : Option Bool
  deriving DecidableEq, Repr

/-- `RunestoneSpec` from `src/index.ts` lines 42–57. -/
structure RunestoneSpec where
  mint : Option (Int × Int)
  pointer : Option Int
  etching : Option RuneEtchingSpec
  edicts : Option (List EdictSpec)
  deriving DecidableEq, Repr

/-- `Cenotaph` from `src/index.ts` lines 71–78 (`etching` is the plain rune
name string). -/
structure Cenotaph where
  flaws : List String
  etching : Option (List Nat)
  mint : Option (Int × Int)
  deriving DecidableEq, Repr

/-! ## Strict conversions (`src/index.ts` lines 105–133) -/

/-- `u8Strict`: reject anything outside `0..u8.MAX`; never wraps. -/
def u8Strict (n : Int) : Except String Nat :=
  if n < 0 ∨ n > (u8MAX : Int) then .error "u8 overflow" else .ok n.toNat

/-- `u32Strict`: reject anything outside `0..u32.MAX`; never wraps. -/
def u32Strict (n : Int) : Except String Nat :=
  if n < 0 ∨ n > (u32MAX : Int) then .error "u32 overflow" else .ok n.toNat

/-- `u64Strict`: reject anything outside `0..u64.MAX`; never wraps. -/
def u64Strict (n : Int) : Except String Nat :=
  if n < 0 ∨ n > (u64MAX : Int) then .error "u64 overflow" else .ok n.toNat

/-- `u128Strict`: reject anything outside `0..u128.MAX`; never wraps. -/
def u128Strict (n : Int) : Except String Nat :=
  if n < 0 ∨ n > (u128MAX : Int) then .error "u128 overflow" else .ok n.toNat

/-- Modelled from the spec: `Rune.commitment` (missing `src/rune`) — the
128-bit rune value serialized little-endian. -/
def leBytes16 (n : Nat) : List Nat :=
  (List.range 16).map fun i => n / 256 ^ i % 256

/-- Drop trailing zero bytes (the leading zero bytes of the big-endian
value, sitting at the tail of the little-endian serialization). -/
def trimTrailingZeros (l : List Nat) : List Nat :=
  ((l.reverse).dropWhile fun b => b == 0).reverse

/-- Modelled from the spec: the etching commitment of §4.G — "the 128-bit
rune value serialized little-endian with leading zero bytes trimmed". -/
def commitment (n : Nat) : List Nat :=
  trimTrailingZeros (leBytes16 n)

/-- UTF-16 code unit count of a string given as code points (TypeScript's
`String.prototype.length`): an astral code point occupies two units. -/
def utf16Len (s : List Nat) : Nat :=
  (s.map fun c => if c ≥ 65536 then 2 else 1).sum

/-! ## Encoding (`encodeRunestone`, `src/index.ts` lines 136–233)

The conversions and checks below follow the evaluation order of the
TypeScript source; `Etching`/`Runestone` construction and `encipher` are
modelled from spec §4.G. -/

/-- Checked conversion of one `RunestoneSpec` edict
(`src/index.ts` lines 153–157). -/
def convEdict (e : EdictSpec) : Except String EdictM := do
  let b ← u64Strict e.idBlock
  let t ← u32Strict e.idTx
  let a ← u128Strict e.amount
  let o ← u32Strict e.output
  pure ⟨b, t, a, o⟩

/-- Ordered effectful map (TypeScript `Array.prototype.map` over a throwing
function: evaluated left to right, the first throw aborts). -/
def mapExcept (f : EdictSpec → Except String EdictM) :
    List EdictSpec → Except String (List EdictM)
  | [] => .ok []
  | x :: xs => do
    let y ← f x
    let ys ← mapExcept f xs
    pure (y :: ys)

/-- The optional mint id conversion (`src/index.ts` lines 147–149). -/
def convMint : Option (Int × Int) → Except String (Option (Nat × Nat))
  | some p => do
    let b ← u64Strict p.1
    let t ← u32Strict p.2
    pure (some (b, t))
  | none => pure none

/-- The optional pointer conversion (`src/index.ts` line 151). -/
def convPointer : Option Int → Except String (Option Nat)
  | some p => do pure (some (← u32Strict p))
  | none => pure none

/-- Optional checked `u8` field. -/
def convOptU8 : Option Int → Except String (Option Nat)
  | some d => do pure (some (← u8Strict d))
  | none => pure none

/-- Optional checked `u64` field. -/
def convOptU64 : Option Int → Except String (Option Nat)
  | some d => do pure (some (← u64Strict d))
  | none => pure none

/-- Optional checked `u128` field. -/
def convOptU128 : Option Int → Except String (Option Nat)
  | some d => do pure (some (← u128Strict d))
  | none => pure none

/-- An optional `height`/`offset` range (`src/index.ts` lines 199–214):
absent ranges become an unset pair. -/
def convRangePair : Option (Option Int × Option Int) →
    Except String (Option Nat × Option Nat)
  | some hp => do
    let s ← convOptU64 hp.1
    let e ← convOptU64 hp.2
    pure (s, e)
  | none => pure (none, none)

/-- Checked conversion of the `terms` member
(`src/index.ts` lines 194–221), including the
`amount * cap > u128.MAX` refusal (line 216). -/
def convTerms (ts : TermsSpec) : Except String TermsM := do
  let amount ← convOptU128 ts.amount
  let cap ← convOptU128 ts.cap
  let height ← convRangePair ts.height
  let offset ← convRangePair ts.offset
  if amount.isSome ∧ cap.isSome ∧ amount.getD 0 * cap.getD 0 > u128MAX then
    throw "Terms overflow with amount times cap"
  else
    pure ⟨amount, cap, height, offset⟩

/-- The optional terms conversion (`src/index.ts` lines 193–221). -/
def convTermsOpt : Option TermsSpec → Except String (Option TermsM)
  | some ts => do pure (some (← convTerms ts))
  | none => pure none

/-- `SpacedRune.fromString` on an optional rune name (`src/index.ts` lines
164–166); an empty string is falsy in TypeScript and treated as absent. -/
def convRuneName : Option (List Nat) → Except String (Option (Nat × Nat))
  | some s => if s = [] then pure none else do pure (some (← spacedRuneFromString s))
  | none => pure none

/-- The "Symbol must be one code point" check (`src/index.ts` lines
169–177): the TypeScript test is on UTF-16 units — length 1, or length 2
when the string is one astral code point (surrogate pair).  An empty symbol
string is falsy and skips the check. -/
def checkSymbol : Option (List Nat) → Except String Unit
  | some s =>
    if s ≠ [] ∧ ¬ (utf16Len s = 1 ∨ (utf16Len s = 2 ∧ 65536 ≤ s.headD 0)) then
      throw "Symbol must be one code point"
    else pure ()
  | none => pure ()

/-- The spacers field (`src/index.ts` lines 183–186): kept only when the
parsed mask is non-zero, then `u32Strict`-checked. -/
def convSpacers : Option (Nat × Nat) → Except String (Option Nat)
  | some p =>
    if p.2 ≠ 0 then do pure (some (← u32Strict (p.2 : Int)))
    else pure none
  | none => pure none

/-- The stored symbol (`src/index.ts` lines 187, falsy empty string): its
single code point, which is all `encipher` uses. -/
def symbolCp : Option (List Nat) → Option Nat
  | some s => if s = [] then none else some (s.headD 0)
  | none => none

/-- The `MAX_DIVISIBILITY` check (`src/index.ts` lines 189–191). -/
def checkDivisibility : Option Nat → Except String Unit
  | some d =>
    if d > MAX_DIVISIBILITY then
      throw "Divisibility is greater than protocol max 38"
    else pure ()
  | none => pure ()

/-- Checked conversion of the etching spec (`src/index.ts` lines 161–227),
in the evaluation order of the source.  Returns the built `Etching` and the
etching commitment (line 226: the commitment of the rune when one is set,
`undefined` otherwise). -/
def convEtching (es : RuneEtchingSpec) :
    Except String (EtchingM × Option (List Nat)) := do
  let spaced ← convRuneName es.runeName
  let rune := spaced.map fun p => p.1
  let _ ← checkSymbol es.symbol
  let divisibility ← convOptU8 es.divisibility
  let premine ← convOptU128 es.premine
  let spacers ← convSpacers spaced
  let symbol := symbolCp es.symbol
  let _ ← checkDivisibility divisibility
  let terms ← convTermsOpt es.terms
  let turbo := es.turbo.getD false
  pure (⟨divisibility, rune, spacers, symbol, terms, premine, turbo⟩,
    rune.map commitment)

/-- The optional etching conversion (`src/index.ts` lines 159–227). -/
def convEtchingOpt : Option RuneEtchingSpec →
    Except String (Option (EtchingM × Option (List Nat)))
  | some es => do pure (some (← convEtching es))
  | none => pure none

/-- The full checked build of `src/index.ts` lines 147–227: the mid-level
`Runestone` together with the optional etching commitment. -/
def buildRunestoneM (r : RunestoneSpec) :
    Except String (RunestoneM × Option (List Nat)) := do
  let mint ← convMint r.mint
  let pointer ← convPointer r.pointer
  let edicts ← mapExcept convEdict (r.edicts.getD [])
  let etch ← convEtchingOpt r.etching
  pure (⟨mint, pointer, edicts, etch.map fun p => p.1⟩, etch.bind fun p => p.2)

/-! ### `Runestone.encipher`, modelled from spec §4.G -/

/-- A tag/value pair for an optional field. -/
def optChunk (t : Nat) : Option Nat → List (Nat × Nat)
  | none => []
  | some v => [(t, v)]

/-- Modelled from the spec: the flag bits (§4.E: `Etching=0`, `Terms=1`,
`Turbo=2`). -/
def flagsOf (e : EtchingM) : Nat :=
  1 + (if e.terms.isSome then 2 else 0) + (if e.turbo then 4 else 0)

/-- Modelled from the spec: the tag/value pairs of a runestone in emission
order — flags first, then recognized fields in ascending tag order, the mint
id as two values under tag 20 (§4.G, §4.E). -/
def fieldChunks (m : RunestoneM) : List (Nat × Nat) :=
  optChunk 2 (m.etching.map flagsOf) ++
  optChunk 1 (m.etching.bind fun e => e.divisibility) ++
  optChunk 3 (m.etching.bind fun e => e.spacers) ++
  optChunk 4 (m.etching.bind fun e => e.rune) ++
  optChunk 5 (m.etching.bind fun e => e.symbol) ++
  optChunk 6 (m.etching.bind fun e => e.premine) ++
  optChunk 8 (m.etching.bind fun e => e.terms.bind fun t => t.cap) ++
  optChunk 10 (m.etching.bind fun e => e.terms.bind fun t => t.amount) ++
  optChunk 12 (m.etching.bind fun e => e.terms.bind fun t => t.height.1) ++
  optChunk 14 (m.etching.bind fun e => e.terms.bind fun t => t.height.2) ++
  optChunk 16 (m.etching.bind fun e => e.terms.bind fun t => t.offset.1) ++
  optChunk 18 (m.etching.bind fun e => e.terms.bind fun t => t.offset.2) ++
  (match m.mint with
   | some p => [(20, p.1), (20, p.2)]
   | none => []) ++
  optChunk 22 m.pointer

/-- Comparison of edicts by `RuneId`, lexicographic (§3, §4.H). -/
def edictLEb (a b : EdictM) : Bool :=
  decide (a.block < b.block ∨ (a.block = b.block ∧ a.tx ≤ b.tx))

/-- Insertion step of the encoder's edict sort. -/
def insertEdict (e : EdictM) : List EdictM → List EdictM
  | [] => [e]
  | x :: xs => if edictLEb e x then e :: x :: xs else x :: insertEdict e xs

/-- Modelled from the spec: the encoder sorts edicts by `RuneId` ascending
(§4.G). -/
def sortEdicts : List EdictM → List EdictM
  | [] => []
  | e :: xs => insertEdict e (sortEdicts xs)

/-- Modelled from the spec: delta-encode sorted edicts (§4.H): block delta,
then the tx delta (absolute tx when the block changed), amount, output. -/
def edictPayload : Nat → Nat → List EdictM → List Nat
  | _, _, [] => []
  | pb, pt, e :: rest =>
    (e.block - pb) :: (if e.block = pb then e.tx - pt else e.tx)
      :: e.amount :: e.output :: edictPayload e.block e.tx rest

/-- Flatten tag/value pairs into the integer stream. -/
def serializeFields : List (Nat × Nat) → List Nat
  | [] => []
  | p :: rest => p.1 :: p.2 :: serializeFields rest

/-- Modelled from the spec: the integer sequence of a runestone message —
fields, then the body sentinel `0` followed by delta-encoded edicts when any
exist (§4.E, §4.G). -/
def messageInts (m : RunestoneM) : List Nat :=
  serializeFields (fieldChunks m) ++
    (if m.edicts.isEmpty then [] else 0 :: edictPayload 0 0 (sortEdicts m.edicts))

/-- Modelled from the spec: `Runestone.encipher` — the output script
`OP_RETURN OP_13 <payload push>` (§4.G, §6 wire format; `OP_RETURN` = 0x6a,
`OP_13` = 0x5d).  The payload is pushed as data; the decoder concatenates
all pushes, so the chunking of the push is immaterial. -/
def encipher (m : RunestoneM) : List Instr :=
  [.op 106, .op 93, .push (serializeInts (messageInts m))]

/-- The result record of `encodeRunestone`. -/
structure EncodeResult where
  encodedRunestone : List Instr
  etchingCommitment : Option (List Nat)
  deriving DecidableEq, Repr

/-- `encodeRunestone` from `src/index.ts` lines 143–233. -/
def encodeRunestone (r : RunestoneSpec) : Except String EncodeResult :=
  (buildRunestoneM r).map fun p => ⟨encipher p.1, p.2⟩

/-! ## Decoding (`Runestone.decipher`, modelled from spec §4.D–§4.F, and the
`tryDecodeRunestone` glue of `src/index.ts` lines 239–337) -/

/-- Modelled from the spec: split the integer stream into tag/value pairs
and the body (everything after the first `0` tag); the boolean records the
`truncated_field` flaw — a tag with no following value (§4.E).  Fields
parsed before the truncation are kept, so recoverable fields survive into a
cenotaph (§4.F.5). -/
def parsePairs : List Nat → List (Nat × Nat) × List Nat × Bool
  | [] => ([], [], false)
  | 0 :: rest => ([], rest, false)
  | [_] => ([], [], true)
  | t :: v :: rest =>
    let p := parsePairs rest
    ((t, v) :: p.1, p.2.1, p.2.2)

/-- All values carried by a tag, in payload order (§4.E: duplicate tags
collect values in order). -/
def takeVals (t : Nat) (fields : List (Nat × Nat)) : List Nat :=
  (fields.filter fun p => p.1 == t).map fun p => p.2

/-- The first value of a tag, if any. -/
def takeVal (t : Nat) (fields : List (Nat × Nat)) : Option Nat :=
  (takeVals t fields).head?

/-- The first two values of a tag, if present (the mint id is carried as two
values under tag 20). -/
def takeTwo (t : Nat) (fields : List (Nat × Nat)) : Option (Nat × Nat) :=
  match takeVals t fields with
  | a :: b :: _ => some (a, b)
  | _ => none

/-- The recognized tag numbers (§4.E). -/
def recognizedTags : List Nat :=
  [0, 2, 4, 6, 8, 10, 12, 14, 16, 18, 20, 22, 126, 1, 3, 5, 127]

/-- Modelled from the spec: an even tag the implementation does not
recognize produces the `unrecognized_even_tag` flaw; odd unknown tags are
ignored (§4.E). -/
def hasEvenUnrecognized (fields : List (Nat × Nat)) : Bool :=
  fields.any fun p => p.1 % 2 == 0 && !(recognizedTags.contains p.1)

/-- A Unicode scalar value (assignable code point, not a surrogate): the
domain of the one-code-point `symbol` field. -/
def isValidScalar (c : Nat) : Bool :=
  decide (c < 1114112 ∧ ¬ (55296 ≤ c ∧ c ≤ 57343))

/-- Modelled from the spec: resolve the body into edicts by folding deltas
(§4.F.1, §4.H).  A delta pushing a component beyond its width, or a rune id
with `block = 0` and `tx ≠ 0`, is the `edict_rune_id` flaw; an `output`
beyond `u32` or strictly greater than the transaction's output count is the
`edict_output` flaw; a trailing group of fewer than four integers is the
`trailing_integers` flaw.  Processing stops at the first flaw. -/
def decodeEdicts (nOuts : Nat) : Nat → Nat → List Nat → List EdictM × List FlawM
  | _, _, [] => ([], [])
  | pb, pt, bd :: td :: am :: outp :: rest =>
    let b := pb + bd
    if b > u64MAX then ([], [.edictRuneId])
    else
      let t := if bd = 0 then pt + td else td
      if t > u32MAX then ([], [.edictRuneId])
      else if b = 0 ∧ t ≠ 0 then ([], [.edictRuneId])
      else if outp > u32MAX ∨ outp > nOuts then ([], [.edictOutput])
      else
        let p := decodeEdicts nOuts b t rest
        (⟨b, t, am, outp⟩ :: p.1, p.2)
  | _, _, _ => ([], [.trailingIntegers])

/-- Final decision of the builder (§4.F.5): any accumulated flaw downgrades
the artifact to a cenotaph that carries the flaw list, the etched rune and
the mint id; otherwise the runestone stands. -/
def finishArtifact (flaws : List FlawM) (rs : RunestoneM)
    (et : Option Nat) (mi : Option (Nat × Nat)) : ArtifactM :=
  if flaws = [] then .runestone rs else .cenotaph ⟨flaws, et, mi⟩

/-- Modelled from the spec: build the artifact from the parsed message
(§4.E flags and tags, §4.F steps 1–5).  Field values are taken under the
flags that govern them; the `Cenotaph` flag bit 7 is never taken, so any
flag bit other than `Etching`/`Terms`/`Turbo` — including it — lands in the
`unrecognized_flag` flaw, which downgrades the artifact as §4.F.5 requires.
A cenotaph preserves the etched rune and the mint id (§4.F.5). -/
def buildArtifact (parsed : List (Nat × Nat) × List Nat × Bool) (nOuts : Nat) :
    ArtifactM :=
  let fields := parsed.1
  let body := parsed.2.1
  let truncated := parsed.2.2
  let flags := (takeVal 2 fields).getD 0
  let etchFlag := flags % 2 = 1
  let termsFlag := flags / 2 % 2 = 1
  let turboFlag := flags / 4 % 2 = 1
  let extraFlags := flags / 8 ≠ 0
  let rune := if etchFlag then takeVal 4 fields else none
  let divisibility :=
    if etchFlag then (takeVal 1 fields).filter fun d => decide (d ≤ MAX_DIVISIBILITY)
    else none
  let spacers :=
    if etchFlag then (takeVal 3 fields).filter fun s => decide (s ≤ u32MAX)
    else none
  let symbol := if etchFlag then (takeVal 5 fields).filter isValidScalar else none
  let premine := if etchFlag then takeVal 6 fields else none
  let amount := if etchFlag ∧ termsFlag then takeVal 10 fields else none
  let cap := if etchFlag ∧ termsFlag then takeVal 8 fields else none
  let heights : Option Nat × Option Nat :=
    if etchFlag ∧ termsFlag then
      ((takeVal 12 fields).filter fun x => decide (x ≤ u64MAX),
       (takeVal 14 fields).filter fun x => decide (x ≤ u64MAX))
    else (none, none)
  let offsets : Option Nat × Option Nat :=
    if etchFlag ∧ termsFlag then
      ((takeVal 16 fields).filter fun x => decide (x ≤ u64MAX),
       (takeVal 18 fields).filter fun x => decide (x ≤ u64MAX))
    else (none, none)
  let terms : Option TermsM :=
    if etchFlag ∧ termsFlag then some ⟨amount, cap, heights, offsets⟩ else none
  let etching : Option EtchingM :=
    if etchFlag then
      some ⟨divisibility, rune, spacers, symbol, terms, premine, turboFlag⟩
    else none
  let mint := (takeTwo 20 fields).bind fun p =>
    if p.1 ≤ u64MAX ∧ p.2 ≤ u32MAX then some p else none
  let pointer := takeVal 22 fields
  let supplyFlaw := etchFlag ∧ termsFlag ∧
    (amount.getD 0 * cap.getD 0 > u128MAX ∨
     premine.getD 0 + amount.getD 0 * cap.getD 0 > u128MAX)
  let ep := decodeEdicts nOuts 0 0 body
  let pointerFlaw := pointer.isSome ∧ pointer.getD 0 ≥ nOuts
  let flaws : List FlawM :=
    (if truncated then [.truncatedField] else []) ++
    (if extraFlags then [.unrecognizedFlag] else []) ++
    (if hasEvenUnrecognized fields then [.unrecognizedEvenTag] else []) ++
    (if supplyFlaw then [.supplyOverflow] else []) ++
    ep.2 ++
    (if pointerFlaw then [.edictOutput] else [])
  finishArtifact flaws ⟨mint, pointer, ep.1, etching⟩ rune mint

/-- Modelled from the spec: an output script opens the runestone iff it
begins `OP_RETURN` immediately followed by `OP_13` (§4.D). -/
def isMagicScript : List Instr → Bool
  | .op 106 :: .op 93 :: _ => true
  | _ => false

/-- Modelled from the spec: concatenate the data pushes after the magic
opcodes; any non-push opcode is the `opcode` flaw and an unparseable element
is the `invalid_script` flaw (§4.D). -/
def gatherPushes : List Instr → Except FlawM (List Nat)
  | [] => .ok []
  | .push d :: rest => (gatherPushes rest).map fun acc => d ++ acc
  | .op _ :: _ => .error .opcode
  | .invalid :: _ => .error .invalidScript

/-- Modelled from the spec: `Runestone.decipher` (missing `src/runestone`) —
`none` when no output starts `OP_RETURN OP_13`; otherwise a runestone or a
cenotaph built from the first such output (§4.D–§4.F; a failure in the first
candidate output never falls through to later outputs). -/
def decipher (tx : RunestoneTx) : Option ArtifactM :=
  match tx.vout.find? isMagicScript with
  | none => none
  | some s =>
    some (match gatherPushes (s.drop 2) with
      | .error f => .cenotaph ⟨[f], none, none⟩
      | .ok bytes =>
        match decodeAllVarints bytes with
        | none => .cenotaph ⟨[.varint], none, none⟩
        | some ints => buildArtifact (parsePairs ints) tx.vout.length)

/-- The runestone branch of `tryDecodeRunestone` (`src/index.ts` lines
246–326): rebuild a `RunestoneSpec` object.  Keys are present exactly when
the TypeScript spreads add them: `edicts` only when non-empty, `height`/
`offset` only when a bound is set, `turbo` always. -/
def toSpec (m : RunestoneM) : RunestoneSpec :=
  { mint := m.mint.map fun p => ((p.1 : Int), (p.2 : Int))
    pointer := m.pointer.map fun p => (p : Int)
    etching := m.etching.map fun e =>
      { divisibility := e.divisibility.map fun d => (d : Int)
        premine := e.premine.map fun p => (p : Int)
        runeName := e.rune.map fun rv => renderSpaced rv (e.spacers.getD 0)
        symbol := e.symbol.map fun c => [c]
        terms := e.terms.map fun t =>
          { amount := t.amount.map fun a => (a : Int)
            cap := t.cap.map fun c2 => (c2 : Int)
            height :=
              if t.height.1.isSome ∨ t.height.2.isSome then
                some (t.height.1.map fun x => (x : Int),
                  t.height.2.map fun x => (x : Int))
              else none
            offset :=
              if t.offset.1.isSome ∨ t.offset.2.isSome then
                some (t.offset.1.map fun x => (x : Int),
                  t.offset.2.map fun x => (x : Int))
              else none }
        turbo := some e.turbo }
    edicts :=
      if m.edicts.isEmpty then none
      else some (m.edicts.map fun e =>
        ⟨(e.block : Int), (e.tx : Int), (e.amount : Int), (e.output : Int)⟩) }

/-- The cenotaph branch of `tryDecodeRunestone` (`src/index.ts` lines
327–336): flaw strings, the plain rune name, the mint id. -/
def toCenotaph (c : CenotaphM) : Cenotaph :=
  { flaws := c.flaws.map getFlawString
    etching := c.etching.map renderName
    mint := c.mint.map fun p => ((p.1 : Int), (p.2 : Int)) }

/-- `tryDecodeRunestone` from `src/index.ts` lines 239–337. -/
def tryDecodeRunestone (tx : RunestoneTx) : Option (RunestoneSpec ⊕ Cenotaph) :=
  (decipher tx).map fun a =>
    match a with
    | .runestone m => .inl (toSpec m)
    | .cenotaph c => .inr (toCenotaph c)

/-- `isRunestone` from `src/index.ts` lines 235–237: the TypeScript test is
`!('flaws' in artifact)`.  The runestone branch of `tryDecodeRunestone`
builds its object without a `flaws` key and the cenotaph branch always with
one, so on decoded artifacts the key test is exactly the variant test. -/
def isRunestone : RunestoneSpec ⊕ Cenotaph → Bool
  | .inl _ => true
  | .inr _ => false

/-! ## Host transactions for decoding an encoded runestone -/

/-- Output count sufficient for the decoder's output-index checks: above any
`pointer` and at least every edict `output` (§4.F.1 flags only an output
strictly greater than the output count, §4.F.4 flags a pointer not below
it). -/
def outputsNeeded (r : RunestoneSpec) : Nat :=
  max 1 (max (match r.pointer with | some p => p.toNat + 1 | none => 0)
    (((r.edicts.getD []).map fun e => e.output.toNat).foldr max 0))

/-- A transaction whose first output script carries the encoded runestone,
padded with empty non-`OP_RETURN` outputs so every output reference of the
spec is in range. -/
def mkTx (r : RunestoneSpec) (script : List Instr) : RunestoneTx :=
  ⟨script :: List.replicate (outputsNeeded r - 1) []⟩

/-! ## Inversion helpers -/

theorem exceptBind_ok {α β : Type} {x : Except String α} {f : α → Except String β}
    {b : β} (h : x >>= f = .ok b) : ∃ a, x = .ok a ∧ f a = .ok b := by
  cases x with
  | error e => simp [Bind.bind, Except.bind] at h
  | ok a => exact ⟨a, rfl, by simpa [Bind.bind, Except.bind] using h⟩

theorem u8Strict_ok {n : Int} {m : Nat} :
    u8Strict n = .ok m ↔ 0 ≤ n ∧ n ≤ (u8MAX : Int) ∧ m = n.toNat := by
  rw [u8Strict]
  split_ifs with h
  · simp only [reduceCtorEq, false_iff]
    omega
  · simp only [Except.ok.injEq]
    omega

theorem u32Strict_ok {n : Int} {m : Nat} :
    u32Strict n = .ok m ↔ 0 ≤ n ∧ n ≤ (u32MAX : Int) ∧ m = n.toNat := by
  rw [u32Strict]
  split_ifs with h
  · simp only [reduceCtorEq, false_iff]
    omega
  · simp only [Except.ok.injEq]
    omega

theorem u64Strict_ok {n : Int} {m : Nat} :
    u64Strict n = .ok m ↔ 0 ≤ n ∧ n ≤ (u64MAX : Int) ∧ m = n.toNat := by
  rw [u64Strict]
  split_ifs with h
  · simp only [reduceCtorEq, false_iff]
    omega
  · simp only [Except.ok.injEq]
    omega

theorem u128Strict_ok {n : Int} {m : Nat} :
    u128Strict n = .ok m ↔ 0 ≤ n ∧ n ≤ (u128MAX : Int) ∧ m = n.toNat := by
  rw [u128Strict]
  split_ifs with h
  · simp only [reduceCtorEq, false_iff]
    omega
  · simp only [Except.ok.injEq]
    omega

theorem encodeRunestone_ok_inv {r : RunestoneSpec} {out : EncodeResult}
    (h : encodeRunestone r = .ok out) :
    ∃ m comm, buildRunestoneM r = .ok (m, comm) ∧ out = ⟨encipher m, comm⟩ := by
  rw [encodeRunestone] at h
  cases hb : buildRunestoneM r with
  | error e => rw [hb] at h; cases h
  | ok p =>
    obtain ⟨m, comm⟩ := p
    rw [hb] at h
    simp only [Except.map, Except.ok.injEq] at h
    exact ⟨m, comm, rfl, h.symm⟩

/-- Every cenotaph produced by `buildArtifact` carries at least one flaw: the
cenotaph branch is taken only when the accumulated flaw list is non-empty. -/
theorem finishArtifact_cenotaph_ne (fl : List FlawM) (rs : RunestoneM)
    (et : Option Nat) (mi : Option (Nat × Nat)) (cm : CenotaphM)
    (h : finishArtifact fl rs et mi = .cenotaph cm) : cm.flaws ≠ [] := by
  rw [finishArtifact] at h
  split_ifs at h with hfl
  cases h
  exact hfl

theorem buildArtifact_cenotaph_flaws (parsed : List (Nat × Nat) × List Nat × Bool)
    (nOuts : Nat) (cm : CenotaphM)
    (h : buildArtifact parsed nOuts = .cenotaph cm) : cm.flaws ≠ [] := by
  simp only [buildArtifact] at h
  exact finishArtifact_cenotaph_ne _ _ _ _ _ h

/-- Every cenotaph produced by `decipher` carries at least one flaw. -/
theorem decipher_cenotaph_flaws (tx : RunestoneTx) (cm : CenotaphM)
    (h : decipher tx = some (.cenotaph cm)) : cm.flaws ≠ [] := by
  rw [decipher] at h
  cases hf : tx.vout.find? isMagicScript with
  | none => rw [hf] at h; cases h
  | some s =>
    rw [hf] at h
    dsimp only at h
    cases hg : gatherPushes (s.drop 2) with
    | error f =>
      rw [hg] at h
      dsimp only at h
      cases h
      simp
    | ok bytes =>
      rw [hg] at h
      dsimp only at h
      cases hv : decodeAllVarints bytes with
      | none =>
        rw [hv] at h
        dsimp only at h
        cases h
        simp
      | some ints =>
        rw [hv] at h
        dsimp only at h
        cases h2 : buildArtifact (parsePairs ints) tx.vout.length with
        | runestone m =>
          rw [h2] at h
          cases h
        | cenotaph cm2 =>
          rw [h2] at h
          cases h
          exact buildArtifact_cenotaph_flaws _ _ _ h2

/-! ## Claim theorems -/

/-- C3: `tryDecodeRunestone` returns exactly one of three mutually exclusive
outcomes — `none` exactly when no output script starts with `OP_RETURN`
immediately followed by `OP_13`, a `RunestoneSpec`, or a `Cenotaph`; no other
result shape is possible. -/
theorem c3_decode_trichotomy (tx : RunestoneTx) :
    (tryDecodeRunestone tx = none ↔ ∀ s ∈ tx.vout, isMagicScript s = false) ∧
    (tryDecodeRunestone tx = none ∨
      (∃ r, tryDecodeRunestone tx = some (.inl r)) ∨
      (∃ c, tryDecodeRunestone tx = some (.inr c))) := by
  constructor
  · have hd : tryDecodeRunestone tx = none ↔ decipher tx = none := by
      rw [tryDecodeRunestone]
      cases decipher tx <;> simp
    rw [hd, decipher]
    cases hf : tx.vout.find? isMagicScript with
    | none =>
      rw [List.find?_eq_none] at hf
      constructor
      · intro _ s hs
        simpa using hf s hs
      · intro _
        rfl
    | some s =>
      constructor
      · intro habs
        cases habs
      · intro hall
        exfalso
        have hsome := List.find?_some hf
        have hmem := List.mem_of_find?_eq_some hf
        rw [hall s hmem] at hsome
        cases hsome
  · cases h : tryDecodeRunestone tx with
    | none => exact Or.inl rfl
    | some a =>
      cases a with
      | inl r => exact Or.inr (Or.inl ⟨r, rfl⟩)
      | inr c => exact Or.inr (Or.inr ⟨c, rfl⟩)

/-- C8: every `Cenotaph` returned by `tryDecodeRunestone` has a non-empty
flaws list. -/
theorem c8_cenotaph_flaws_nonempty (tx : RunestoneTx) (c : Cenotaph)
    (h : tryDecodeRunestone tx = some (.inr c)) : c.flaws ≠ [] := by
  rw [tryDecodeRunestone] at h
  cases hd : decipher tx with
  | none => rw [hd] at h; cases h
  | some art =>
    rw [hd] at h
    have h2 := Option.some.inj h
    cases art with
    | runestone m => simp at h2
    | cenotaph cm =>
      have h3 : toCenotaph cm = c := Sum.inr.inj h2
      rw [← h3]
      have hne := decipher_cenotaph_flaws tx cm hd
      simp only [toCenotaph, ne_eq, List.map_eq_nil_iff]
      exact hne

theorem c8_witness : (Cenotaph.mk ["opcode"] none none).flaws ≠ [] :=
  c8_cenotaph_flaws_nonempty ⟨[[.op 106, .op 93, .op 147]]⟩ _ (by decide)

/-- C10: `isRunestone` (the embedding of the TypeScript key test
`!('flaws' in artifact)`) classifies every non-null result of
`tryDecodeRunestone` correctly: it answers `true` exactly on the runestone
branch (whose object carries no `flaws` key) and `false` exactly on the
cenotaph branch (whose object always carries a `flaws` key with a non-empty
list). -/
theorem c10_isRunestone_classifies (tx : RunestoneTx)
    (a : RunestoneSpec ⊕ Cenotaph) (h : tryDecodeRunestone tx = some a) :
    (isRunestone a = true ↔
      ∃ m, decipher tx = some (.runestone m) ∧ a = .inl (toSpec m)) ∧
    (isRunestone a = false ↔
      ∃ cm, decipher tx = some (.cenotaph cm) ∧ a = .inr (toCenotaph cm) ∧
        (toCenotaph cm).flaws ≠ []) := by
  rw [tryDecodeRunestone] at h
  cases hd : decipher tx with
  | none => rw [hd] at h; cases h
  | some art =>
    rw [hd] at h
    have h2 := Option.some.inj h
    cases art with
    | runestone m =>
      have ha : a = .inl (toSpec m) := h2.symm
      subst ha
      constructor
      · exact ⟨fun _ => ⟨m, rfl, rfl⟩, fun _ => rfl⟩
      · constructor
        · intro hfalse
          simp [isRunestone] at hfalse
        · rintro ⟨cm, hcm, _⟩
          simp at hcm
    | cenotaph cm =>
      have ha : a = .inr (toCenotaph cm) := h2.symm
      subst ha
      have hne := decipher_cenotaph_flaws tx cm hd
      constructor
      · constructor
        · intro htrue
          simp [isRunestone] at htrue
        · rintro ⟨m, hm, _⟩
          simp at hm
      · refine ⟨fun _ => ⟨cm, rfl, rfl, ?_⟩, fun _ => rfl⟩
        simp only [toCenotaph, ne_eq, List.map_eq_nil_iff]
        exact hne

theorem c10_witness :
    isRunestone (.inl (toSpec ⟨none, none, [], none⟩)) = true ∧
    isRunestone (.inr (toCenotaph ⟨[.opcode], none, none⟩)) = false := by
  constructor
  · exact (c10_isRunestone_classifies ⟨[[.op 106, .op 93]]⟩ _ (by decide)).1.mpr
      ⟨⟨none, none, [], none⟩, by decide, rfl⟩
  · exact (c10_isRunestone_classifies ⟨[[.op 106, .op 93, .op 147]]⟩ _
      (by decide)).2.mpr ⟨⟨[.opcode], none, none⟩, by decide, rfl, by decide⟩

/-- The failing input of C2: premine `u128::MAX` with terms
`amount = 1`, `cap = 1`, so `premine + amount·cap` exceeds `u128::MAX`. -/
def c2Spec : RunestoneSpec :=
  ⟨none, none,
    some ⟨none, some ((u128MAX : Int)), none, none,
      some ⟨some 1, some 1, none, none⟩, none⟩,
    none⟩

/-- C2 (code bug): `encodeRunestone` checks only `amount · cap ≤ u128::MAX`
(`src/index.ts` line 216) and never `premine + amount · cap`, so it accepts
this spec — producing bytes that decode to a `supply_overflow` cenotaph,
contradicting both the spec's build-time invariant and the function's own
`@throws Error if encoding is detected to be considered a cenotaph`
documentation. -/
theorem c2_encode_accepts_supply_overflow :
    ∃ out, encodeRunestone c2Spec = .ok out ∧
      tryDecodeRunestone ⟨[out.encodedRunestone]⟩
        = some (.inr ⟨["supply_overflow"], none, none⟩) :=
  ⟨_, rfl, by decide⟩

theorem convEtching_ok_inv {es : RuneEtchingSpec}
    {pr : EtchingM × Option (List Nat)} (h : convEtching es = .ok pr) :
    ∃ spaced divisibility premine spacers terms,
      convRuneName es.runeName = .ok spaced ∧
      checkSymbol es.symbol = .ok () ∧
      convOptU8 es.divisibility = .ok divisibility ∧
      convOptU128 es.premine = .ok premine ∧
      convSpacers spaced = .ok spacers ∧
      checkDivisibility divisibility = .ok () ∧
      convTermsOpt es.terms = .ok terms ∧
      pr = (⟨divisibility, spaced.map (fun p => p.1), spacers, symbolCp es.symbol,
        terms, premine, es.turbo.getD false⟩,
        (spaced.map (fun p => p.1)).map commitment) := by
  rw [convEtching] at h
  obtain ⟨spaced, h1, h⟩ := exceptBind_ok h
  obtain ⟨u1, h2, h⟩ := exceptBind_ok h
  obtain ⟨divisibility, h3, h⟩ := exceptBind_ok h
  obtain ⟨premine, h4, h⟩ := exceptBind_ok h
  obtain ⟨spacers, h5, h⟩ := exceptBind_ok h
  obtain ⟨u2, h6, h⟩ := exceptBind_ok h
  obtain ⟨terms, h7, hfin⟩ := exceptBind_ok h
  cases u1
  cases u2
  refine ⟨spaced, divisibility, premine, spacers, terms, h1, h2, h3, h4, h5, h6, h7, ?_⟩
  exact (Except.ok.inj (hfin : Except.ok _ = Except.ok pr)).symm

theorem buildRunestoneM_ok_inv {r : RunestoneSpec}
    {p : RunestoneM × Option (List Nat)} (h : buildRunestoneM r = .ok p) :
    ∃ mint pointer edicts etch,
      convMint r.mint = .ok mint ∧
      convPointer r.pointer = .ok pointer ∧
      mapExcept convEdict (r.edicts.getD []) = .ok edicts ∧
      convEtchingOpt r.etching = .ok etch ∧
      p = (⟨mint, pointer, edicts, etch.map fun q => q.1⟩,
        etch.bind fun q => q.2) := by
  rw [buildRunestoneM] at h
  obtain ⟨mint, h1, h⟩ := exceptBind_ok h
  obtain ⟨pointer, h2, h⟩ := exceptBind_ok h
  obtain ⟨edicts, h3, h⟩ := exceptBind_ok h
  obtain ⟨etch, h4, h⟩ := exceptBind_ok h
  exact ⟨mint, pointer, edicts, etch, h1, h2, h3, h4,
    (Except.ok.inj (h : Except.ok _ = Except.ok p)).symm⟩

theorem convOptU8_ok_inv {o : Option Int} {oo : Option Nat}
    (h : convOptU8 o = .ok oo) :
    (o = none ∧ oo = none) ∨
    ∃ d, o = some d ∧ 0 ≤ d ∧ d ≤ (u8MAX : Int) ∧ oo = some d.toNat := by
  cases o with
  | none => exact Or.inl ⟨rfl, (Except.ok.inj h).symm⟩
  | some d =>
    right
    obtain ⟨x, hx, h2⟩ := exceptBind_ok h
    rw [u8Strict_ok] at hx
    refine ⟨d, rfl, hx.1, hx.2.1, ?_⟩
    have h3 := (Except.ok.inj (h2 : Except.ok _ = Except.ok oo)).symm
    rw [h3, hx.2.2]

theorem convOptU64_ok_inv {o : Option Int} {oo : Option Nat}
    (h : convOptU64 o = .ok oo) :
    (o = none ∧ oo = none) ∨
    ∃ d, o = some d ∧ 0 ≤ d ∧ d ≤ (u64MAX : Int) ∧ oo = some d.toNat := by
  cases o with
  | none => exact Or.inl ⟨rfl, (Except.ok.inj h).symm⟩
  | some d =>
    right
    obtain ⟨x, hx, h2⟩ := exceptBind_ok h
    rw [u64Strict_ok] at hx
    refine ⟨d, rfl, hx.1, hx.2.1, ?_⟩
    have h3 := (Except.ok.inj (h2 : Except.ok _ = Except.ok oo)).symm
    rw [h3, hx.2.2]

theorem convOptU128_ok_inv {o : Option Int} {oo : Option Nat}
    (h : convOptU128 o = .ok oo) :
    (o = none ∧ oo = none) ∨
    ∃ d, o = some d ∧ 0 ≤ d ∧ d ≤ (u128MAX : Int) ∧ oo = some d.toNat := by
  cases o with
  | none => exact Or.inl ⟨rfl, (Except.ok.inj h).symm⟩
  | some d =>
    right
    obtain ⟨x, hx, h2⟩ := exceptBind_ok h
    rw [u128Strict_ok] at hx
    refine ⟨d, rfl, hx.1, hx.2.1, ?_⟩
    have h3 := (Except.ok.inj (h2 : Except.ok _ = Except.ok oo)).symm
    rw [h3, hx.2.2]

theorem convPointer_ok_inv {o : Option Int} {oo : Option Nat}
    (h : convPointer o = .ok oo) :
    (o = none ∧ oo = none) ∨
    ∃ p, o = some p ∧ 0 ≤ p ∧ p ≤ (u32MAX : Int) ∧ oo = some p.toNat := by
  cases o with
  | none => exact Or.inl ⟨rfl, (Except.ok.inj h).symm⟩
  | some p =>
    right
    obtain ⟨x, hx, h2⟩ := exceptBind_ok h
    rw [u32Strict_ok] at hx
    refine ⟨p, rfl, hx.1, hx.2.1, ?_⟩
    have h3 := (Except.ok.inj (h2 : Except.ok _ = Except.ok oo)).symm
    rw [h3, hx.2.2]

theorem convMint_ok_inv {o : Option (Int × Int)} {mm : Option (Nat × Nat)}
    (h : convMint o = .ok mm) :
    (o = none ∧ mm = none) ∨
    ∃ b t, o = some (b, t) ∧ 0 ≤ b ∧ b ≤ (u64MAX : Int) ∧ 0 ≤ t ∧
      t ≤ (u32MAX : Int) ∧ mm = some (b.toNat, t.toNat) := by
  cases o with
  | none => exact Or.inl ⟨rfl, (Except.ok.inj h).symm⟩
  | some p =>
    right
    obtain ⟨b, t⟩ := p
    obtain ⟨bb, hbb, h2⟩ := exceptBind_ok h
    obtain ⟨tt, htt, h3⟩ := exceptBind_ok h2
    rw [u64Strict_ok] at hbb
    rw [u32Strict_ok] at htt
    refine ⟨b, t, rfl, hbb.1, hbb.2.1, htt.1, htt.2.1, ?_⟩
    have h4 := (Except.ok.inj (h3 : Except.ok _ = Except.ok mm)).symm
    rw [h4, hbb.2.2, htt.2.2]

theorem convEdict_ok_inv {e : EdictSpec} {em : EdictM}
    (h : convEdict e = .ok em) :
    0 ≤ e.idBlock ∧ e.idBlock ≤ (u64MAX : Int) ∧
    0 ≤ e.idTx ∧ e.idTx ≤ (u32MAX : Int) ∧
    0 ≤ e.amount ∧ e.amount ≤ (u128MAX : Int) ∧
    0 ≤ e.output ∧ e.output ≤ (u32MAX : Int) ∧
    em = ⟨e.idBlock.toNat, e.idTx.toNat, e.amount.toNat, e.output.toNat⟩ := by
  obtain ⟨b, hb, h⟩ := exceptBind_ok h
  obtain ⟨t, ht, h⟩ := exceptBind_ok h
  obtain ⟨a, ha, h⟩ := exceptBind_ok h
  obtain ⟨o, ho, hcore⟩ := exceptBind_ok h
  rw [u64Strict_ok] at hb
  rw [u32Strict_ok] at ht
  rw [u128Strict_ok] at ha
  rw [u32Strict_ok] at ho
  refine ⟨hb.1, hb.2.1, ht.1, ht.2.1, ha.1, ha.2.1, ho.1, ho.2.1, ?_⟩
  have h4 := (Except.ok.inj (hcore : Except.ok _ = Except.ok em)).symm
  rw [h4, hb.2.2, ht.2.2, ha.2.2, ho.2.2]

theorem mapExcept_ok_mem {l : List EdictSpec} :
    ∀ {lm : List EdictM}, mapExcept convEdict l = .ok lm →
      ∀ e ∈ l, ∃ em, convEdict e = .ok em := by
  induction l with
  | nil =>
    intro lm _ e he
    cases he
  | cons x xs ih =>
    intro lm h e he
    obtain ⟨y, hy, h⟩ := exceptBind_ok h
    obtain ⟨ys, hys, _⟩ := exceptBind_ok h
    rcases List.mem_cons.mp he with rfl | hmem
    · exact ⟨y, hy⟩
    · exact ih hys e hmem

theorem convRangePair_ok_inv {o : Option (Option Int × Option Int)}
    {pp : Option Nat × Option Nat} (h : convRangePair o = .ok pp) :
    (o = none ∧ pp = (none, none)) ∨
    ∃ hp, o = some hp ∧ convOptU64 hp.1 = .ok pp.1 ∧ convOptU64 hp.2 = .ok pp.2 := by
  cases o with
  | none => exact Or.inl ⟨rfl, (Except.ok.inj h).symm⟩
  | some hp =>
    right
    obtain ⟨s, hs, h⟩ := exceptBind_ok h
    obtain ⟨e, he, hcore⟩ := exceptBind_ok h
    have h4 := (Except.ok.inj (hcore : Except.ok _ = Except.ok pp)).symm
    refine ⟨hp, rfl, ?_, ?_⟩
    · rw [h4]
      exact hs
    · rw [h4]
      exact he

theorem convTerms_ok_inv {ts : TermsSpec} {tm : TermsM}
    (h : convTerms ts = .ok tm) :
    convOptU128 ts.amount = .ok tm.amount ∧ convOptU128 ts.cap = .ok tm.cap ∧
    convRangePair ts.height = .ok tm.height ∧
    convRangePair ts.offset = .ok tm.offset ∧
    ¬ (tm.amount.isSome ∧ tm.cap.isSome ∧
      tm.amount.getD 0 * tm.cap.getD 0 > u128MAX) := by
  rw [convTerms] at h
  obtain ⟨amount, ha, h⟩ := exceptBind_ok h
  obtain ⟨cap, hc, h⟩ := exceptBind_ok h
  obtain ⟨height, hh, h⟩ := exceptBind_ok h
  obtain ⟨offset, ho, hcore⟩ := exceptBind_ok h
  have hcore2 : (if amount.isSome ∧ cap.isSome ∧ amount.getD 0 * cap.getD 0 > u128MAX
      then (throw "Terms overflow with amount times cap" : Except String TermsM)
      else pure ⟨amount, cap, height, offset⟩) = .ok tm := hcore
  split_ifs at hcore2 with hcond
  have h4 := (Except.ok.inj (hcore2 : Except.ok _ = Except.ok tm)).symm
  subst h4
  exact ⟨ha, hc, hh, ho, hcond⟩

theorem convTermsOpt_ok_inv {o : Option TermsSpec} {om : Option TermsM}
    (h : convTermsOpt o = .ok om) :
    (o = none ∧ om = none) ∨
    ∃ ts tm, o = some ts ∧ convTerms ts = .ok tm ∧ om = some tm := by
  cases o with
  | none => exact Or.inl ⟨rfl, (Except.ok.inj h).symm⟩
  | some ts =>
    right
    obtain ⟨tm, htm, hcore⟩ := exceptBind_ok h
    exact ⟨ts, tm, rfl, htm,
      (Except.ok.inj (hcore : Except.ok _ = Except.ok om)).symm⟩

theorem convEtchingOpt_ok_inv {o : Option RuneEtchingSpec}
    {om : Option (EtchingM × Option (List Nat))} (h : convEtchingOpt o = .ok om) :
    (o = none ∧ om = none) ∨
    ∃ es pr, o = some es ∧ convEtching es = .ok pr ∧ om = some pr := by
  cases o with
  | none => exact Or.inl ⟨rfl, (Except.ok.inj h).symm⟩
  | some es =>
    right
    obtain ⟨pr, hpr, hcore⟩ := exceptBind_ok h
    exact ⟨es, pr, rfl, hpr,
      (Except.ok.inj (hcore : Except.ok _ = Except.ok om)).symm⟩

theorem convRuneName_ok_inv {o : Option (List Nat)} {ro : Option (Nat × Nat)}
    (h : convRuneName o = .ok ro) :
    (o = none ∧ ro = none) ∨ (o = some [] ∧ ro = none) ∨
    ∃ s v mask, o = some s ∧ s ≠ [] ∧ spacedRuneFromString s = .ok (v, mask) ∧
      ro = some (v, mask) := by
  cases o with
  | none => exact Or.inl ⟨rfl, (Except.ok.inj h).symm⟩
  | some s =>
    rw [convRuneName] at h
    split_ifs at h with hs
    · subst hs
      exact Or.inr (Or.inl ⟨rfl, (Except.ok.inj h).symm⟩)
    · obtain ⟨p, hp, hcore⟩ := exceptBind_ok h
      obtain ⟨v, mask⟩ := p
      exact Or.inr (Or.inr ⟨s, v, mask, rfl, hs, hp,
        (Except.ok.inj (hcore : Except.ok _ = Except.ok ro)).symm⟩)

theorem checkSymbol_ok_inv {o : Option (List Nat)} (h : checkSymbol o = .ok ()) :
    ∀ s, o = some s → s ≠ [] →
      utf16Len s = 1 ∨ (utf16Len s = 2 ∧ 65536 ≤ s.headD 0) := by
  intro s ho hne
  subst ho
  rw [checkSymbol] at h
  split_ifs at h with hcond
  by_contra hno
  exact hcond ⟨hne, hno⟩

theorem checkDivisibility_ok_inv {o : Option Nat}
    (h : checkDivisibility o = .ok ()) :
    ∀ d, o = some d → d ≤ MAX_DIVISIBILITY := by
  intro d ho
  subst ho
  rw [checkDivisibility] at h
  split_ifs at h with hcond
  omega

theorem convSpacers_ok_inv {o : Option (Nat × Nat)} {so : Option Nat}
    (h : convSpacers o = .ok so) :
    (o = none ∧ so = none) ∨
    ∃ p, o = some p ∧
      ((p.2 = 0 ∧ so = none) ∨ (p.2 ≠ 0 ∧ p.2 ≤ u32MAX ∧ so = some p.2)) := by
  cases o with
  | none => exact Or.inl ⟨rfl, (Except.ok.inj h).symm⟩
  | some p =>
    right
    rw [convSpacers] at h
    split_ifs at h with hz
    · obtain ⟨x, hx, hcore⟩ := exceptBind_ok h
      rw [u32Strict_ok] at hx
      refine ⟨p, rfl, Or.inr ⟨hz, by omega, ?_⟩⟩
      have h4 := (Except.ok.inj (hcore : Except.ok _ = Except.ok so)).symm
      rw [h4, hx.2.2]
      simp
    · refine ⟨p, rfl, Or.inl ⟨by omega, (Except.ok.inj h).symm⟩⟩

theorem utf16Len_ge (s : List Nat) : s.length ≤ utf16Len s := by
  induction s with
  | nil => simp [utf16Len]
  | cons c rest ih =>
    simp only [utf16Len, List.map_cons, List.sum_cons, List.length_cons]
    simp only [utf16Len] at ih
    split_ifs <;> omega

/-- The minimal etching spec carrying only a divisibility. -/
def divSpec (d : Int) : RunestoneSpec :=
  ⟨none, none, some ⟨some d, none, none, none, none, some false⟩, none⟩

theorem ok_bind {α β : Type} (a : α) (f : α → Except String β) :
    (Except.ok a : Except String α) >>= f = f a := rfl

/-- C5: `encodeRunestone` rejects a divisibility exactly when it exceeds
`MAX_DIVISIBILITY = 38`: a successful encode forces `0 ≤ d ≤ 38` for any
supplied divisibility, and every divisibility within `0..38` on an otherwise
minimal etching encodes successfully. -/
theorem c5_divisibility_max :
    (∀ (r : RunestoneSpec) (es : RuneEtchingSpec) (d : Int) (out : EncodeResult),
      r.etching = some es → es.divisibility = some d →
      encodeRunestone r = .ok out → 0 ≤ d ∧ d ≤ 38) ∧
    (∀ d : Int, 0 ≤ d → d ≤ 38 →
      (encodeRunestone (divSpec d)).isOk = true) := by
  constructor
  · intro r es d out hres hdiv hok
    obtain ⟨m, comm, hb, _⟩ := encodeRunestone_ok_inv hok
    obtain ⟨mint, pointer, edicts, etch, _, _, _, hetch, _⟩ :=
      buildRunestoneM_ok_inv hb
    rw [hres] at hetch
    rcases convEtchingOpt_ok_inv hetch with ⟨heq, _⟩ | ⟨es2, pr, heq, hconv, _⟩
    · cases heq
    · have hes : es2 = es := (Option.some.inj heq).symm
      subst hes
      obtain ⟨spaced, divisibility, premine, spacers, terms,
        _, _, hdivc, _, _, hchk, _, _⟩ := convEtching_ok_inv hconv
      rcases convOptU8_ok_inv hdivc with ⟨hnone, _⟩ | ⟨d2, hd2, h0, h255, hdd⟩
      · rw [hdiv] at hnone
        cases hnone
      · rw [hdiv] at hd2
        have hd2d : d2 = d := Option.some.inj hd2.symm
        subst hd2d
        have h38 := checkDivisibility_ok_inv hchk d2.toNat (by rw [hdd])
        simp only [MAX_DIVISIBILITY] at h38
        omega
  · intro d h0 h38
    have h8 : u8Strict d = .ok d.toNat :=
      u8Strict_ok.mpr ⟨h0, by simp only [u8MAX]; omega, rfl⟩
    have hcd : checkDivisibility (some d.toNat) = .ok () := by
      rw [checkDivisibility, if_neg (show ¬ d.toNat > MAX_DIVISIBILITY by
        simp only [MAX_DIVISIBILITY]
        omega)]
      rfl
    have hconv : convOptU8 (some d) = .ok (some d.toNat) := by
      rw [convOptU8, h8, ok_bind]
      rfl
    have hbuild : buildRunestoneM (divSpec d)
        = .ok (⟨none, none, [],
            some ⟨some d.toNat, none, none, none, none, none, false⟩⟩, none) := by
      rw [buildRunestoneM]
      show (convMint none >>= _) = _
      rw [show convMint none = .ok none from rfl, ok_bind]
      show (convPointer none >>= _) = _
      rw [show convPointer none = .ok none from rfl, ok_bind]
      show (mapExcept convEdict [] >>= _) = _
      rw [show mapExcept convEdict [] = .ok [] from rfl, ok_bind]
      show (convEtchingOpt (some ⟨some d, none, none, none, none, some false⟩) >>= _) = _
      have hetch : convEtching ⟨some d, none, none, none, none, some false⟩
          = .ok (⟨some d.toNat, none, none, none, none, none, false⟩, none) := by
        rw [convEtching]
        show (convRuneName none >>= _) = _
        rw [show convRuneName none = .ok none from rfl, ok_bind]
        show (checkSymbol none >>= _) = _
        rw [show checkSymbol none = .ok () from rfl, ok_bind]
        show (convOptU8 (some d) >>= _) = _
        rw [hconv, ok_bind]
        show (convOptU128 none >>= _) = _
        rw [show convOptU128 none = .ok none from rfl, ok_bind]
        show (convSpacers none >>= _) = _
        rw [show convSpacers none = .ok none from rfl, ok_bind]
        show (checkDivisibility (some d.toNat) >>= _) = _
        rw [hcd, ok_bind]
        show (convTermsOpt none >>= _) = _
        rw [show convTermsOpt none = .ok none from rfl, ok_bind]
        rfl
      rw [show convEtchingOpt (some ⟨some d, none, none, none, none, some false⟩)
          = convEtching ⟨some d, none, none, none, none, some false⟩ >>= fun x =>
            pure (some x) from rfl]
      rw [hetch, ok_bind]
      rfl
    rw [encodeRunestone, hbuild]
    rfl

theorem c5_witness : (0 : Int) ≤ 38 ∧ (38 : Int) ≤ 38 ∧
    (encodeRunestone (divSpec 38)).isOk = true :=
  ⟨by norm_num, by norm_num,
    c5_divisibility_max.2 38 (by norm_num) (by norm_num)⟩

/-- The C4 counterexample input: an etching whose `symbol` is the empty
string — zero code points, so not "exactly one Unicode code point". -/
def emptySymbolSpec : RunestoneSpec :=
  ⟨none, none, some ⟨none, none, none, some [], none, none⟩, none⟩

/-- C4 counterexample: a spec whose etching symbol is the empty string — not
one code point — is accepted by `encodeRunestone`, because the TypeScript
check `etchingSpec.symbol && …` treats the falsy empty string as absent.
This refutes the claim as stated. -/
theorem c4_counterexample :
    (emptySymbolSpec.etching.bind fun es => es.symbol) = some [] ∧
    ([] : List Nat).length ≠ 1 ∧
    (encodeRunestone emptySymbolSpec).isOk = true := by
  refine ⟨rfl, by simp, ?_⟩
  decide

/-- C4 as amended: for every spec whose etching symbol is a **non-empty**
string that is not exactly one Unicode code point, `encodeRunestone` fails
(an empty symbol string is falsy in TypeScript and treated as absent). -/
theorem c4_symbol_one_code_point (r : RunestoneSpec) (es : RuneEtchingSpec)
    (s : List Nat) (hres : r.etching = some es) (hsym : es.symbol = some s)
    (hne : s ≠ []) (hlen : s.length ≠ 1) :
    (encodeRunestone r).isOk = false := by
  cases hok : encodeRunestone r with
  | error e => rfl
  | ok out =>
    exfalso
    obtain ⟨m, comm, hb, _⟩ := encodeRunestone_ok_inv hok
    obtain ⟨mint, pointer, edicts, etch, _, _, _, hetch, _⟩ :=
      buildRunestoneM_ok_inv hb
    rw [hres] at hetch
    rcases convEtchingOpt_ok_inv hetch with ⟨heq, _⟩ | ⟨es2, pr, heq, hconv, _⟩
    · cases heq
    · have hes : es2 = es := (Option.some.inj heq).symm
      subst hes
      obtain ⟨spaced, divisibility, premine, spacers, terms,
        _, hsymok, _, _, _, _, _, _⟩ := convEtching_ok_inv hconv
      have hone := checkSymbol_ok_inv hsymok s hsym hne
      have hlen2 : 2 ≤ s.length := by
        cases s with
        | nil => exact absurd rfl hne
        | cons c rest =>
          cases rest with
          | nil => simp at hlen
          | cons c2 rest2 => simp
      have hge := utf16Len_ge s
      rcases hone with h1 | ⟨h2, hhead⟩
      · omega
      · -- utf16Len s = 2 with at least two code points forces both below
        -- 0x10000, contradicting the astral first code point
        cases s with
        | nil => exact absurd rfl hne
        | cons c rest =>
          have hcge : 65536 ≤ c := by simpa using hhead
          have : utf16Len (c :: rest) = (if c ≥ 65536 then 2 else 1) + utf16Len rest := by
            simp [utf16Len]
          rw [if_pos hcge] at this
          have hrest := utf16Len_ge rest
          have hrlen : 1 ≤ rest.length := by
            simp only [List.length_cons] at hlen2
            omega
          omega

theorem c4_witness :
    (encodeRunestone
      ⟨none, none, some ⟨none, none, none, some [65, 66], none, none⟩, none⟩).isOk
      = false :=
  c4_symbol_one_code_point _ _ [65, 66] rfl rfl (by simp) (by simp)

/-! ## C7: bounded-domain checks -/

/-- `n` lies in the unsigned domain `0..maxv`. -/
def intIn (n : Int) (maxv : Nat) : Bool :=
  decide (0 ≤ n ∧ n ≤ (maxv : Int))

/-- A bound check on an optional field: absent fields are unconstrained. -/
def optAll {α : Type} (f : α → Bool) : Option α → Bool
  | some x => f x
  | none => true

/-- All four numeric fields of an edict lie in their domains. -/
def edictInBounds (e : EdictSpec) : Bool :=
  intIn e.idBlock u64MAX && intIn e.idTx u32MAX &&
  intIn e.amount u128MAX && intIn e.output u32MAX

/-- Both optional bounds of a `height`/`offset` range fit `u64`. -/
def rangeInBounds (hp : Option Int × Option Int) : Bool :=
  optAll (fun x => intIn x u64MAX) hp.1 && optAll (fun x => intIn x u64MAX) hp.2

/-- All numeric fields of the `terms` member lie in their domains. -/
def termsInBounds (ts : TermsSpec) : Bool :=
  optAll (fun a => intIn a u128MAX) ts.amount &&
  optAll (fun c => intIn c u128MAX) ts.cap &&
  optAll rangeInBounds ts.height &&
  optAll rangeInBounds ts.offset

/-- All numeric fields of the etching spec lie in their domains. -/
def etchingInBounds (es : RuneEtchingSpec) : Bool :=
  optAll (fun d => intIn d u8MAX) es.divisibility &&
  optAll (fun p => intIn p u128MAX) es.premine &&
  optAll termsInBounds es.terms

/-- Every numeric field of a `RunestoneSpec` lies in its bounded unsigned
domain: `mint.block` and edict `id.block` in `u64`; `mint.tx`, `pointer`,
edict `id.tx` and edict `output` in `u32`; divisibility in `u8`; `premine`,
terms `amount`/`cap` and edict `amount` in `u128`; `height`/`offset` bounds
in `u64`. -/
def inBounds (r : RunestoneSpec) : Bool :=
  optAll (fun p => intIn p.1 u64MAX && intIn p.2 u32MAX) r.mint &&
  optAll (fun p => intIn p u32MAX) r.pointer &&
  optAll (fun l => l.all edictInBounds) r.edicts &&
  optAll etchingInBounds r.etching

theorem convOptU8_bounds {o : Option Int} {oo : Option Nat}
    (h : convOptU8 o = .ok oo) : optAll (fun d => intIn d u8MAX) o = true := by
  rcases convOptU8_ok_inv h with ⟨rfl, _⟩ | ⟨d, rfl, h0, hle, _⟩
  · rfl
  · simp [optAll, intIn]
    exact ⟨h0, hle⟩

theorem convOptU64_bounds {o : Option Int} {oo : Option Nat}
    (h : convOptU64 o = .ok oo) : optAll (fun d => intIn d u64MAX) o = true := by
  rcases convOptU64_ok_inv h with ⟨rfl, _⟩ | ⟨d, rfl, h0, hle, _⟩
  · rfl
  · simp [optAll, intIn]
    exact ⟨h0, hle⟩

theorem convOptU128_bounds {o : Option Int} {oo : Option Nat}
    (h : convOptU128 o = .ok oo) : optAll (fun d => intIn d u128MAX) o = true := by
  rcases convOptU128_ok_inv h with ⟨rfl, _⟩ | ⟨d, rfl, h0, hle, _⟩
  · rfl
  · simp [optAll, intIn]
    exact ⟨h0, hle⟩

theorem convRangePair_bounds {o : Option (Option Int × Option Int)}
    {pp : Option Nat × Option Nat} (h : convRangePair o = .ok pp) :
    optAll rangeInBounds o = true := by
  rcases convRangePair_ok_inv h with ⟨rfl, _⟩ | ⟨hp, rfl, h1, h2⟩
  · rfl
  · simp only [optAll, rangeInBounds, Bool.and_eq_true]
    exact ⟨convOptU64_bounds h1, convOptU64_bounds h2⟩

theorem convTerms_bounds {ts : TermsSpec} {tm : TermsM}
    (h : convTerms ts = .ok tm) : termsInBounds ts = true := by
  obtain ⟨ha, hc, hh, ho, _⟩ := convTerms_ok_inv h
  simp only [termsInBounds, Bool.and_eq_true]
  exact ⟨⟨⟨convOptU128_bounds ha, convOptU128_bounds hc⟩,
    convRangePair_bounds hh⟩, convRangePair_bounds ho⟩

theorem convEtching_bounds {es : RuneEtchingSpec}
    {pr : EtchingM × Option (List Nat)} (h : convEtching es = .ok pr) :
    etchingInBounds es = true := by
  obtain ⟨spaced, divisibility, premine, spacers, terms,
    _, _, hdiv, hprem, _, _, hterms, _⟩ := convEtching_ok_inv h
  simp only [etchingInBounds, Bool.and_eq_true]
  refine ⟨⟨convOptU8_bounds hdiv, convOptU128_bounds hprem⟩, ?_⟩
  rcases convTermsOpt_ok_inv hterms with ⟨hn, _⟩ | ⟨ts, tm, hs, hts, _⟩
  · rw [hn]
    rfl
  · rw [hs]
    simp only [optAll]
    exact convTerms_bounds hts

/-- C7: a successful `encodeRunestone` forces every numeric field of the
spec into its bounded unsigned domain (so any out-of-domain value, negative
values included, is rejected with an error), and the strict conversions
never silently wrap: any accepted value is returned unchanged. -/
theorem c7_checked_bounds :
    (∀ (r : RunestoneSpec) (out : EncodeResult),
      encodeRunestone r = .ok out → inBounds r = true) ∧
    (∀ n : Int,
      (∀ m, u8Strict n = .ok m → (m : Int) = n) ∧
      (∀ m, u32Strict n = .ok m → (m : Int) = n) ∧
      (∀ m, u64Strict n = .ok m → (m : Int) = n) ∧
      (∀ m, u128Strict n = .ok m → (m : Int) = n)) := by
  constructor
  · intro r out hok
    obtain ⟨m, comm, hb, _⟩ := encodeRunestone_ok_inv hok
    obtain ⟨mint, pointer, edicts, etch, hmint, hptr, hmap, hetch, _⟩ :=
      buildRunestoneM_ok_inv hb
    simp only [inBounds, Bool.and_eq_true]
    refine ⟨⟨⟨?_, ?_⟩, ?_⟩, ?_⟩
    · rcases convMint_ok_inv hmint with ⟨hmn, _⟩ | ⟨b, t, hms, h1, h2, h3, h4, _⟩
      · rw [hmn]
        rfl
      · rw [hms]
        simp [optAll, intIn]
        exact ⟨⟨h1, h2⟩, h3, h4⟩
    · rcases convPointer_ok_inv hptr with ⟨hpn, _⟩ | ⟨p, hps, h1, h2, _⟩
      · rw [hpn]
        rfl
      · rw [hps]
        simp [optAll, intIn]
        exact ⟨h1, h2⟩
    · cases he : r.edicts with
      | none => rfl
      | some l =>
        rw [he] at hmap
        simp only [optAll, List.all_eq_true]
        intro e he2
        obtain ⟨em, hem⟩ := mapExcept_ok_mem hmap e he2
        obtain ⟨h1, h2, h3, h4, h5, h6, h7, h8, _⟩ := convEdict_ok_inv hem
        simp [edictInBounds, intIn, Bool.and_eq_true]
        exact ⟨⟨⟨⟨h1, h2⟩, h3, h4⟩, h5, h6⟩, h7, h8⟩
    · rcases convEtchingOpt_ok_inv hetch with ⟨hen, _⟩ | ⟨es, pr, hes, hconv, _⟩
      · rw [hen]
        rfl
      · rw [hes]
        simp only [optAll]
        exact convEtching_bounds hconv
  · intro n
    refine ⟨?_, ?_, ?_, ?_⟩ <;>
      intro m h
    · rw [u8Strict_ok] at h
      omega
    · rw [u32Strict_ok] at h
      omega
    · rw [u64Strict_ok] at h
      omega
    · rw [u128Strict_ok] at h
      omega

theorem c7_witness :
    inBounds ⟨some (3, 4), some 1, none, none⟩ = true :=
  c7_checked_bounds.1 ⟨some (3, 4), some 1, none, none⟩
    ⟨[.op 106, .op 93, .push [20, 3, 20, 4, 22, 1]], none⟩ rfl

/-- C6: when the etching spec carries a (non-empty) rune name,
`encodeRunestone` returns as `etchingCommitment` exactly the parsed rune
value's commitment — its 128-bit value serialized little-endian with the
leading zero bytes trimmed (`commitment`); when the etching has no rune
name, no commitment is fabricated (`etchingCommitment` is `undefined`) and
the etching is still built and encoded. -/
theorem c6_etching_commitment :
    (∀ (r : RunestoneSpec) (es : RuneEtchingSpec) (s : List Nat)
      (out : EncodeResult),
      r.etching = some es → es.runeName = some s → s ≠ [] →
      encodeRunestone r = .ok out →
      ∃ v mask, spacedRuneFromString s = .ok (v, mask) ∧
        out.etchingCommitment = some (commitment v)) ∧
    (∀ (r : RunestoneSpec) (es : RuneEtchingSpec) (out : EncodeResult),
      r.etching = some es → es.runeName = none →
      encodeRunestone r = .ok out →
      out.etchingCommitment = none ∧
      ∃ m, buildRunestoneM r = .ok (m, none) ∧ m.etching.isSome = true) := by
  constructor
  · intro r es s out hres hrn hne hok
    obtain ⟨m, comm, hb, hout⟩ := encodeRunestone_ok_inv hok
    obtain ⟨mint, pointer, edicts, etch, _, _, _, hetch, hp⟩ :=
      buildRunestoneM_ok_inv hb
    rw [hres] at hetch
    rcases convEtchingOpt_ok_inv hetch with ⟨heq, _⟩ | ⟨es2, pr, heq, hconv, hsome⟩
    · cases heq
    · have hes : es2 = es := (Option.some.inj heq).symm
      subst hes
      obtain ⟨spaced, divisibility, premine, spacers, terms,
        hrune, _, _, _, _, _, _, hpr⟩ := convEtching_ok_inv hconv
      rw [hrn] at hrune
      rcases convRuneName_ok_inv hrune with ⟨hcon, _⟩ | ⟨hcon, _⟩ |
        ⟨s2, v, mask, hs2, _, hfs, hsp⟩
      · cases hcon
      · exact absurd (Option.some.inj hcon) hne
      · have hss : s2 = s := Option.some.inj hs2.symm
        subst hss
        refine ⟨v, mask, hfs, ?_⟩
        rw [hout]
        show comm = some (commitment v)
        have hcomm : comm = etch.bind fun q => q.2 := congrArg Prod.snd hp
        rw [hcomm, hsome, hpr, hsp]
        rfl
  · intro r es out hres hrn hok
    obtain ⟨m, comm, hb, hout⟩ := encodeRunestone_ok_inv hok
    obtain ⟨mint, pointer, edicts, etch, _, _, _, hetch, hp⟩ :=
      buildRunestoneM_ok_inv hb
    rw [hres] at hetch
    rcases convEtchingOpt_ok_inv hetch with ⟨heq, _⟩ | ⟨es2, pr, heq, hconv, hsome⟩
    · cases heq
    · have hes : es2 = es := (Option.some.inj heq).symm
      subst hes
      obtain ⟨spaced, divisibility, premine, spacers, terms,
        hrune, _, _, _, _, _, _, hpr⟩ := convEtching_ok_inv hconv
      rw [hrn] at hrune
      rcases convRuneName_ok_inv hrune with ⟨_, hspn⟩ | ⟨hcon, _⟩ |
        ⟨s2, v, mask, hs2, _, _, _⟩
      · subst hspn
        have hcomm : comm = etch.bind fun q => q.2 := congrArg Prod.snd hp
        have hm : m = ⟨mint, pointer, edicts, etch.map fun q => q.1⟩ :=
          congrArg Prod.fst hp
        have hcnone : comm = none := by
          rw [hcomm, hsome, hpr]
          rfl
        refine ⟨?_, m, ?_, ?_⟩
        · rw [hout]
          exact hcnone
        · rw [← hcnone]
          exact hb
        · rw [hm, hsome]
          rfl
      · cases hcon
      · cases hs2

/-- The C6 witness input: an etching of the rune name `A`. -/
def c6SpecA : RunestoneSpec :=
  ⟨none, none, some ⟨none, none, some [65], none, none, none⟩, none⟩

theorem c6_witness :
    ∃ v mask, spacedRuneFromString [65] = .ok (v, mask) ∧
      (EncodeResult.mk [.op 106, .op 93, .push [2, 1, 4, 0]]
        (some [])).etchingCommitment = some (commitment v) :=
  c6_etching_commitment.1 c6SpecA ⟨none, none, some [65], none, none, none⟩
    [65] _ rfl rfl (by simp) rfl

theorem parseSR_no_bullet_mask (s : List Nat) :
    ∀ ps, parseSR s = some ps → 8226 ∉ s → maskOf ps = 0 := by
  induction s using parseSR.induct with
  | case1 =>
    intro ps h _
    rw [show parseSR [] = some [] from rfl] at h
    cases h
    rfl
  | case2 c hc =>
    intro ps h _
    rw [parseSR.eq_def] at h
    dsimp only at h
    rw [if_pos hc] at h
    cases h
    rfl
  | case3 c hnc =>
    intro ps h _
    rw [parseSR.eq_def] at h
    dsimp only at h
    rw [if_neg hnc] at h
    cases h
  | case4 c hc =>
    intro ps h _
    rw [parseSR.eq_def] at h
    dsimp only at h
    rw [if_pos hc, if_pos rfl] at h
    cases h
  | case5 c hc n rest ih =>
    intro ps _ hnb
    exact absurd (by simp : (8226 : Nat) ∈ c :: 8226 :: n :: rest) hnb
  | case6 c c2 rest hc hb ih =>
    intro ps h hnb
    rw [parseSR.eq_def] at h
    dsimp only at h
    rw [if_pos hc, if_neg hb] at h
    rw [Option.map_eq_some'] at h
    obtain ⟨l, hl, hps⟩ := h
    subst hps
    have hnb2 : 8226 ∉ c2 :: rest := by
      intro hmem
      exact hnb (by simp [hmem])
    have := ih l hl hnb2
    simp [maskOf, this]
  | case7 c c2 rest hnc =>
    intro ps h _
    rw [parseSR.eq_def] at h
    dsimp only at h
    rw [if_neg hnc] at h
    cases h

theorem spacedRuneFromString_no_bullet {s : List Nat} {v mask : Nat}
    (hnb : 8226 ∉ s) (h : spacedRuneFromString s = .ok (v, mask)) :
    mask = 0 := by
  rw [spacedRuneFromString] at h
  cases hp : parseSR s with
  | none => rw [hp] at h; cases h
  | some ps =>
    rw [hp] at h
    cases ps with
    | nil => cases h
    | cons p0 ps0 =>
      dsimp only at h
      split_ifs at h with hv
      cases h
      exact parseSR_no_bullet_mask s (p0 :: ps0) hp hnb

/-- C9: for every etching spec whose rune name contains no spacer `•`, the
built etching carries no `spacers` field at all — an all-zero spacer mask is
normalized to absence, never encoded explicitly. -/
theorem c9_spacers_normalized (r : RunestoneSpec) (es : RuneEtchingSpec)
    (s : List Nat) (m : RunestoneM) (comm : Option (List Nat)) (e : EtchingM)
    (hres : r.etching = some es) (hrn : es.runeName = some s)
    (hnb : 8226 ∉ s) (hb : buildRunestoneM r = .ok (m, comm))
    (he : m.etching = some e) : e.spacers = none := by
  obtain ⟨mint, pointer, edicts, etch, _, _, _, hetch, hp⟩ :=
    buildRunestoneM_ok_inv hb
  rw [hres] at hetch
  rcases convEtchingOpt_ok_inv hetch with ⟨heq, _⟩ | ⟨es2, pr, heq, hconv, hsome⟩
  · cases heq
  · have hes : es2 = es := (Option.some.inj heq).symm
    subst hes
    obtain ⟨spaced, divisibility, premine, spacers, terms,
      hrune, _, _, _, hspc, _, _, hpr⟩ := convEtching_ok_inv hconv
    have hm : m = ⟨mint, pointer, edicts, etch.map fun q => q.1⟩ :=
      congrArg Prod.fst hp
    have hee : e = pr.1 := by
      rw [hm, hsome] at he
      exact (Option.some.inj he).symm
    rw [hrn] at hrune
    rcases convRuneName_ok_inv hrune with ⟨hcon, _⟩ | ⟨_, hspn⟩ |
      ⟨s2, v, mask, hs2, _, hfs, hsp⟩
    · cases hcon
    · subst hspn
      rcases convSpacers_ok_inv hspc with ⟨_, hse⟩ | ⟨p, hpe, _⟩
      · rw [hee, hpr]
        exact hse
      · cases hpe
    · have hss : s2 = s := Option.some.inj hs2.symm
      subst hss
      have hmask0 : mask = 0 := spacedRuneFromString_no_bullet hnb hfs
      subst hmask0
      rcases convSpacers_ok_inv hspc with ⟨hcon, _⟩ | ⟨p, hpe, hc2⟩
      · rw [hsp] at hcon
        cases hcon
      · rw [hsp] at hpe
        have hpp : p = (v, 0) := (Option.some.inj hpe).symm
        subst hpp
        rcases hc2 with ⟨_, hse⟩ | ⟨hne0, _, _⟩
        · rw [hee, hpr]
          exact hse
        · exact absurd rfl hne0

theorem c9_witness : (EtchingM.mk none (some 0) none none none none
    false).spacers = none :=
  c9_spacers_normalized c6SpecA ⟨none, none, some [65], none, none, none⟩
    [65] ⟨none, none, [], some ⟨none, some 0, none, none, none, none, false⟩⟩
    (some []) ⟨none, some 0, none, none, none, none, false⟩
    rfl rfl (by simp) rfl rfl

/-! ## C1: the decode–encode round trip

`WellFormed` captures the specs on which the round trip can hold at all:
every numeric field in its domain, a decodable symbol (exactly one Unicode
scalar value), a parseable rune name, the build-time supply invariant
`premine + amount·cap ≤ u128::MAX` (its absence is the C2 bug, and its
violation decodes to a `supply_overflow` cenotaph), edicts sorted by id as
the encoder's canonical order, no `(block = 0, tx ≠ 0)` edict id, and no
empty collections or absent `turbo` that the TypeScript object spreads
collapse (`edicts: []`, `symbol: ""`, `runeName: ""`, `height`/`offset` with
both bounds unset) — those encode identically to the absent field, so only
the canonical representative round-trips. -/

/-- One edict is well-formed: in bounds, and not the reserved
`block = 0, tx ≠ 0` id that decoding flags as `edict_rune_id`. -/
def edictWFb (e : EdictSpec) : Bool :=
  edictInBounds e && !(e.idBlock == 0 && e.idTx != 0)

/-- Edicts sorted by id, lexicographic non-decreasing (the encoder's
canonical order, §4.G). -/
def edictsSortedB : List EdictSpec → Bool
  | [] => true
  | [_] => true
  | a :: b :: rest =>
    decide (a.idBlock < b.idBlock ∨ (a.idBlock = b.idBlock ∧ a.idTx ≤ b.idTx))
      && edictsSortedB (b :: rest)

/-- Well-formed terms: in bounds, satisfying the supply invariant together
with the premine, and with no height/offset present-but-empty range. -/
def termsWFb (premine : Option Int) (ts : TermsSpec) : Bool :=
  termsInBounds ts &&
  decide (premine.getD 0 + ts.amount.getD 0 * ts.cap.getD 0 ≤ (u128MAX : Int)) &&
  !(ts.height == some (none, none)) && !(ts.offset == some (none, none))

/-- Well-formed etching spec. -/
def etchingWFb (es : RuneEtchingSpec) : Bool :=
  etchingInBounds es &&
  decide (es.divisibility.getD 0 ≤ 38) &&
  es.turbo.isSome &&
  (match es.runeName with
   | none => true
   | some s => !(s == []) && (spacedRuneFromString s).isOk) &&
  (match es.symbol with
   | none => true
   | some s => decide (s.length = 1) && isValidScalar (s.headD 0)) &&
  (match es.terms with
   | none => true
   | some ts => termsWFb es.premine ts)

/-- Well-formed `RunestoneSpec` (see the section comment). -/
def wellFormedB (r : RunestoneSpec) : Bool :=
  inBounds r &&
  !(r.edicts == some []) &&
  (match r.edicts with
   | none => true
   | some l => l.all edictWFb && edictsSortedB l) &&
  (match r.etching with
   | none => true
   | some es => etchingWFb es)

/-- The mid-level edict a well-formed spec edict converts to. -/
def edictMid (e : EdictSpec) : EdictM :=
  ⟨e.idBlock.toNat, e.idTx.toNat, e.amount.toNat, e.output.toNat⟩

/-- The parsed value/mask of an optional rune name (empty = absent). -/
def runeValMask : Option (List Nat) → Option (Nat × Nat)
  | some s => if s = [] then none else (spacedRuneFromString s).toOption
  | none => none

/-- The mid-level range a well-formed height/offset member converts to. -/
def rangeMid : Option (Option Int × Option Int) → Option Nat × Option Nat
  | some hp => (hp.1.map Int.toNat, hp.2.map Int.toNat)
  | none => (none, none)

/-- The mid-level terms a well-formed terms spec converts to. -/
def termsMid (ts : TermsSpec) : TermsM :=
  ⟨ts.amount.map Int.toNat, ts.cap.map Int.toNat,
    rangeMid ts.height, rangeMid ts.offset⟩

/-- The mid-level etching a well-formed etching spec converts to. -/
def etchMid (es : RuneEtchingSpec) : EtchingM :=
  ⟨es.divisibility.map Int.toNat,
    (runeValMask es.runeName).map fun p => p.1,
    (runeValMask es.runeName).bind fun p => if p.2 ≠ 0 then some p.2 else none,
    symbolCp es.symbol,
    es.terms.map termsMid,
    es.premine.map Int.toNat,
    es.turbo.getD false⟩

/-- The mid-level runestone a well-formed spec converts to. -/
def midOf (r : RunestoneSpec) : RunestoneM :=
  ⟨r.mint.map fun p => (p.1.toNat, p.2.toNat),
    r.pointer.map Int.toNat,
    (r.edicts.getD []).map edictMid,
    r.etching.map etchMid⟩

/-- Mid-level edict sortedness (consecutive pairs). -/
def sortedMB : List EdictM → Bool
  | [] => true
  | [_] => true
  | a :: b :: rest => edictLEb a b && sortedMB (b :: rest)

/-- The decoder's running-id chain condition. -/
def chainB : Nat → Nat → List EdictM → Bool
  | _, _, [] => true
  | pb, pt, e :: rest =>
    decide (pb < e.block ∨ (pb = e.block ∧ pt ≤ e.tx)) && chainB e.block e.tx rest

theorem insertEdict_head (e : EdictM) (xs : List EdictM)
    (h : ∀ x, xs.head? = some x → edictLEb e x = true) :
    insertEdict e xs = e :: xs := by
  cases xs with
  | nil => rfl
  | cons x rest =>
    rw [insertEdict, if_pos (h x rfl)]

theorem sortEdicts_sorted_id (l : List EdictM) (h : sortedMB l = true) :
    sortEdicts l = l := by
  induction l with
  | nil => rfl
  | cons e xs ih =>
    have hxs : sortedMB xs = true := by
      cases xs with
      | nil => rfl
      | cons x rest =>
        rw [sortedMB, Bool.and_eq_true] at h
        exact h.2
    rw [sortEdicts, ih hxs]
    apply insertEdict_head
    intro x hx
    cases xs with
    | nil => cases hx
    | cons x2 rest =>
      cases hx
      rw [sortedMB, Bool.and_eq_true] at h
      exact h.1

theorem sortedMB_chainB (l : List EdictM) (h : sortedMB l = true) :
    chainB 0 0 l = true := by
  cases l with
  | nil => rfl
  | cons e rest =>
    rw [chainB, Bool.and_eq_true]
    constructor
    · rw [decide_eq_true_eq]
      rcases Nat.eq_zero_or_pos e.block with hz | hp
      · exact Or.inr ⟨hz.symm, Nat.zero_le _⟩
      · exact Or.inl hp
    · induction rest generalizing e with
      | nil => rfl
      | cons f rest2 ih =>
        rw [sortedMB, Bool.and_eq_true] at h
        rw [chainB, Bool.and_eq_true]
        constructor
        · rw [edictLEb] at h
          exact h.1
        · exact ih f h.2

/-- The commitment `encodeRunestone` returns for a well-formed spec. -/
def commOf (r : RunestoneSpec) : Option (List Nat) :=
  r.etching.bind fun es =>
    ((runeValMask es.runeName).map fun p => p.1).map commitment

theorem convOptU8_eval {o : Option Int}
    (h : optAll (fun d => intIn d u8MAX) o = true) :
    convOptU8 o = .ok (o.map Int.toNat) := by
  cases o with
  | none => rfl
  | some d =>
    simp only [optAll, intIn, decide_eq_true_eq] at h
    show (u8Strict d >>= _) = _
    rw [u8Strict_ok.mpr ⟨h.1, h.2, rfl⟩, ok_bind]
    rfl

theorem convOptU64_eval {o : Option Int}
    (h : optAll (fun d => intIn d u64MAX) o = true) :
    convOptU64 o = .ok (o.map Int.toNat) := by
  cases o with
  | none => rfl
  | some d =>
    simp only [optAll, intIn, decide_eq_true_eq] at h
    show (u64Strict d >>= _) = _
    rw [u64Strict_ok.mpr ⟨h.1, h.2, rfl⟩, ok_bind]
    rfl

theorem convOptU128_eval {o : Option Int}
    (h : optAll (fun d => intIn d u128MAX) o = true) :
    convOptU128 o = .ok (o.map Int.toNat) := by
  cases o with
  | none => rfl
  | some d =>
    simp only [optAll, intIn, decide_eq_true_eq] at h
    show (u128Strict d >>= _) = _
    rw [u128Strict_ok.mpr ⟨h.1, h.2, rfl⟩, ok_bind]
    rfl

theorem convMint_eval {o : Option (Int × Int)}
    (h : optAll (fun p => intIn p.1 u64MAX && intIn p.2 u32MAX) o = true) :
    convMint o = .ok (o.map fun p => (p.1.toNat, p.2.toNat)) := by
  cases o with
  | none => rfl
  | some p =>
    simp only [optAll, intIn, Bool.and_eq_true, decide_eq_true_eq] at h
    show (u64Strict p.1 >>= _) = _
    rw [u64Strict_ok.mpr ⟨h.1.1, h.1.2, rfl⟩, ok_bind]
    show (u32Strict p.2 >>= _) = _
    rw [u32Strict_ok.mpr ⟨h.2.1, h.2.2, rfl⟩, ok_bind]
    rfl

theorem convPointer_eval {o : Option Int}
    (h : optAll (fun p => intIn p u32MAX) o = true) :
    convPointer o = .ok (o.map Int.toNat) := by
  cases o with
  | none => rfl
  | some p =>
    simp only [optAll, intIn, decide_eq_true_eq] at h
    show (u32Strict p >>= _) = _
    rw [u32Strict_ok.mpr ⟨h.1, h.2, rfl⟩, ok_bind]
    rfl

theorem convEdict_eval {e : EdictSpec} (h : edictInBounds e = true) :
    convEdict e = .ok (edictMid e) := by
  simp only [edictInBounds, intIn, Bool.and_eq_true, decide_eq_true_eq] at h
  show (u64Strict e.idBlock >>= _) = _
  rw [u64Strict_ok.mpr ⟨h.1.1.1.1, h.1.1.1.2, rfl⟩, ok_bind]
  show (u32Strict e.idTx >>= _) = _
  rw [u32Strict_ok.mpr ⟨h.1.1.2.1, h.1.1.2.2, rfl⟩, ok_bind]
  show (u128Strict e.amount >>= _) = _
  rw [u128Strict_ok.mpr ⟨h.1.2.1, h.1.2.2, rfl⟩, ok_bind]
  show (u32Strict e.output >>= _) = _
  rw [u32Strict_ok.mpr ⟨h.2.1, h.2.2, rfl⟩, ok_bind]
  rfl

theorem mapExcept_eval {l : List EdictSpec}
    (h : ∀ e ∈ l, edictInBounds e = true) :
    mapExcept convEdict l = .ok (l.map edictMid) := by
  induction l with
  | nil => rfl
  | cons x xs ih =>
    rw [mapExcept]
    rw [convEdict_eval (h x (by simp)), ok_bind]
    rw [ih (fun e he => h e (by simp [he])), ok_bind]
    rfl

theorem convRangePair_eval {o : Option (Option Int × Option Int)}
    (h : optAll rangeInBounds o = true) :
    convRangePair o = .ok (rangeMid o) := by
  cases o with
  | none => rfl
  | some hp =>
    simp only [optAll, rangeInBounds, Bool.and_eq_true] at h
    show (convOptU64 hp.1 >>= _) = _
    rw [convOptU64_eval h.1, ok_bind]
    show (convOptU64 hp.2 >>= _) = _
    rw [convOptU64_eval h.2, ok_bind]
    rfl

theorem convTerms_eval {ts : TermsSpec} (h : termsInBounds ts = true)
    (h2 : ts.amount.getD 0 * ts.cap.getD 0 ≤ (u128MAX : Int)) :
    convTerms ts = .ok (termsMid ts) := by
  simp only [termsInBounds, Bool.and_eq_true] at h
  rw [convTerms]
  rw [convOptU128_eval h.1.1.1, ok_bind]
  rw [convOptU128_eval h.1.1.2, ok_bind]
  rw [convRangePair_eval h.1.2, ok_bind]
  rw [convRangePair_eval h.2, ok_bind]
  rw [if_neg]
  · rfl
  · rintro ⟨hsa, hsc, hgt⟩
    cases ha : ts.amount with
    | none => rw [ha] at hsa; cases hsa
    | some a =>
      cases hc : ts.cap with
      | none => rw [hc] at hsc; cases hsc
      | some c =>
        have ha0 : 0 ≤ a := by
          have := h.1.1.1
          rw [ha] at this
          simp only [optAll, intIn, decide_eq_true_eq] at this
          exact this.1
        have hc0 : 0 ≤ c := by
          have := h.1.1.2
          rw [hc] at this
          simp only [optAll, intIn, decide_eq_true_eq] at this
          exact this.1
        rw [ha, hc] at h2
        simp only [Option.getD_some] at h2
        rw [ha, hc] at hgt
        simp only [Option.map_some', Option.getD_some] at hgt
        have hcast : ((a.toNat * c.toNat : Nat) : Int) ≤ ((u128MAX : Nat) : Int) := by
          rw [Nat.cast_mul, Int.toNat_of_nonneg ha0, Int.toNat_of_nonneg hc0]
          exact h2
        have hnat : a.toNat * c.toNat ≤ u128MAX := by exact_mod_cast hcast
        omega

theorem convTermsOpt_eval {o : Option TermsSpec}
    (h : ∀ ts, o = some ts → convTerms ts = .ok (termsMid ts)) :
    convTermsOpt o = .ok (o.map termsMid) := by
  cases o with
  | none => rfl
  | some ts =>
    show (convTerms ts >>= _) = _
    rw [h ts rfl, ok_bind]
    rfl

theorem convRuneName_eval {o : Option (List Nat)}
    (h : ∀ s, o = some s → s ≠ [] ∧ (spacedRuneFromString s).isOk = true) :
    convRuneName o = .ok (runeValMask o) := by
  cases o with
  | none => rfl
  | some s =>
    obtain ⟨hne, hok⟩ := h s rfl
    cases hfs : spacedRuneFromString s with
    | error e =>
      rw [hfs] at hok
      cases hok
    | ok p =>
      rw [convRuneName, if_neg hne]
      show (spacedRuneFromString s >>= _) = _
      rw [hfs, ok_bind]
      rw [runeValMask, if_neg hne, hfs]
      rfl

theorem checkSymbol_eval {o : Option (List Nat)}
    (h : ∀ s, o = some s → s.length = 1) :
    checkSymbol o = .ok () := by
  cases o with
  | none => rfl
  | some s =>
    have hlen := h s rfl
    obtain ⟨c, rfl⟩ : ∃ c, s = [c] := by
      cases s with
      | nil => cases hlen
      | cons c rest =>
        cases rest with
        | nil => exact ⟨c, rfl⟩
        | cons c2 rest2 => simp at hlen
    rw [checkSymbol, if_neg]
    · rfl
    · rintro ⟨_, hno⟩
      apply hno
      by_cases hc : c ≥ 65536
      · right
        constructor
        · simp [utf16Len, hc]
        · simpa using hc
      · left
        simp [utf16Len]
        omega

theorem convSpacers_eval {o : Option (Nat × Nat)}
    (h : ∀ p, o = some p → p.2 ≤ u32MAX) :
    convSpacers o = .ok (o.bind fun p => if p.2 ≠ 0 then some p.2 else none) := by
  cases o with
  | none => rfl
  | some p =>
    by_cases hz : p.2 ≠ 0
    · rw [convSpacers, if_pos hz]
      show (u32Strict (p.2 : Int) >>= _) = _
      rw [u32Strict_ok.mpr ⟨by positivity, by exact_mod_cast h p rfl, rfl⟩, ok_bind]
      exact congrArg Except.ok (by simp [hz])
    · rw [convSpacers, if_neg hz]
      simp only [Option.some_bind, if_neg hz]
      rfl

theorem checkDivisibility_eval {o : Option Nat}
    (h : ∀ d, o = some d → d ≤ 38) :
    checkDivisibility o = .ok () := by
  cases o with
  | none => rfl
  | some d =>
    rw [checkDivisibility, if_neg]
    · rfl
    · have := h d rfl
      simp only [MAX_DIVISIBILITY]
      omega

theorem convEtching_eval {es : RuneEtchingSpec}
    (hib : etchingInBounds es = true) (hwf : etchingWFb es = true) :
    convEtching es = .ok (etchMid es,
      ((runeValMask es.runeName).map fun p => p.1).map commitment) := by
  rw [etchingWFb] at hwf
  simp only [Bool.and_eq_true] at hwf
  obtain ⟨⟨⟨⟨⟨_, hdiv38⟩, hturbo⟩, hrn⟩, hsym⟩, hterms⟩ := hwf
  rw [etchingInBounds] at hib
  simp only [Bool.and_eq_true] at hib
  obtain ⟨⟨hdivB, hpremB⟩, htermsB⟩ := hib
  have h1 : convRuneName es.runeName = .ok (runeValMask es.runeName) := by
    apply convRuneName_eval
    intro s hs
    rw [hs] at hrn
    simp only [Bool.and_eq_true, Bool.not_eq_true', beq_eq_false_iff_ne] at hrn
    exact ⟨hrn.1, hrn.2⟩
  have h2 : checkSymbol es.symbol = .ok () := by
    apply checkSymbol_eval
    intro s hs
    rw [hs] at hsym
    simp only [Bool.and_eq_true, decide_eq_true_eq] at hsym
    exact hsym.1
  have h3 : convOptU8 es.divisibility = .ok (es.divisibility.map Int.toNat) :=
    convOptU8_eval hdivB
  have h4 : convOptU128 es.premine = .ok (es.premine.map Int.toNat) :=
    convOptU128_eval hpremB
  have h5 : convSpacers (runeValMask es.runeName)
      = .ok ((runeValMask es.runeName).bind fun p =>
          if p.2 ≠ 0 then some p.2 else none) := by
    apply convSpacers_eval
    intro p hp
    cases hrn2 : es.runeName with
    | none => rw [hrn2] at hp; cases hp
    | some s =>
      rw [hrn2] at hp
      rw [runeValMask] at hp
      split_ifs at hp with hse
      cases hfs : spacedRuneFromString s with
      | error e => rw [hfs] at hp; simp [Except.toOption] at hp
      | ok q =>
        rw [hfs] at hp
        simp only [Except.toOption, Option.some.injEq] at hp
        subst hp
        exact spacedRuneFromString_mask_le s q.1 q.2 (by rw [hfs])
  have h6 : checkDivisibility (es.divisibility.map Int.toNat) = .ok () := by
    apply checkDivisibility_eval
    intro d hd
    cases hdv : es.divisibility with
    | none => rw [hdv] at hd; cases hd
    | some dv =>
      rw [hdv] at hd
      simp only [Option.map_some'] at hd
      have hdd : dv.toNat = d := Option.some.inj hd
      rw [hdv] at hdiv38
      simp only [Option.getD_some, decide_eq_true_eq] at hdiv38
      omega
  have h7 : convTermsOpt es.terms = .ok (es.terms.map termsMid) := by
    apply convTermsOpt_eval
    intro ts hts
    rw [hts] at hterms htermsB
    simp only [optAll] at htermsB
    dsimp only at hterms
    rw [termsWFb] at hterms
    simp only [Bool.and_eq_true, decide_eq_true_eq] at hterms
    apply convTerms_eval htermsB
    have hsupply := hterms.1.1.2
    have hprem0 : 0 ≤ es.premine.getD 0 := by
      cases hpv : es.premine with
      | none => simp
      | some pv =>
        rw [hpv] at hpremB
        simp only [optAll, intIn, decide_eq_true_eq] at hpremB
        simpa using hpremB.1
    linarith
  simp only [convEtching, h1, h2, h3, h4, h5, h6, h7, ok_bind]
  rfl

theorem convEtchingOpt_eval {o : Option RuneEtchingSpec}
    (h : ∀ es, o = some es → convEtching es = .ok (etchMid es,
      ((runeValMask es.runeName).map fun p => p.1).map commitment)) :
    convEtchingOpt o = .ok (o.map fun es => (etchMid es,
      ((runeValMask es.runeName).map fun p => p.1).map commitment)) := by
  cases o with
  | none => rfl
  | some es =>
    show (convEtching es >>= _) = _
    rw [h es rfl, ok_bind]
    rfl

theorem buildRunestoneM_eval {r : RunestoneSpec} (h : wellFormedB r = true) :
    buildRunestoneM r = .ok (midOf r, commOf r) := by
  rw [wellFormedB] at h
  simp only [Bool.and_eq_true] at h
  obtain ⟨⟨⟨hib, _⟩, hedwf⟩, hetchwf⟩ := h
  rw [inBounds] at hib
  simp only [Bool.and_eq_true] at hib
  obtain ⟨⟨⟨hmintB, hptrB⟩, hedB⟩, hetchB⟩ := hib
  have hed : mapExcept convEdict (r.edicts.getD [])
      = .ok ((r.edicts.getD []).map edictMid) := by
    apply mapExcept_eval
    intro e he
    cases hre : r.edicts with
    | none => rw [hre] at he; cases he
    | some l =>
      rw [hre] at hedB
      simp only [optAll, List.all_eq_true] at hedB
      rw [hre] at he
      exact hedB e he
  have hetch2 : convEtchingOpt r.etching = .ok (r.etching.map fun es =>
      (etchMid es, ((runeValMask es.runeName).map fun p => p.1).map commitment)) := by
    apply convEtchingOpt_eval
    intro es hes
    apply convEtching_eval
    · rw [hes] at hetchB
      simpa only [optAll] using hetchB
    · rw [hes] at hetchwf
      exact hetchwf
  simp only [buildRunestoneM, convMint_eval hmintB, convPointer_eval hptrB,
    hed, hetch2, ok_bind]
  have hmapfst : (r.etching.map fun es => (etchMid es,
      ((runeValMask es.runeName).map fun p => p.1).map commitment)).map
        (fun p => p.1) = r.etching.map etchMid := by
    cases r.etching <;> rfl
  have hbindsnd : (r.etching.map fun es => (etchMid es,
      ((runeValMask es.runeName).map fun p => p.1).map commitment)).bind
        (fun p => p.2) = commOf r := by
    cases hre : r.etching <;> simp [commOf, hre]
  rw [hmapfst, hbindsnd]
  rfl

/-! ### Reading the emitted tag/value pairs back -/

theorem takeVals_append (t : Nat) (a b : List (Nat × Nat)) :
    takeVals t (a ++ b) = takeVals t a ++ takeVals t b := by
  simp [takeVals, List.filter_append]

theorem takeVals_optChunk_self (t : Nat) (o : Option Nat) :
    takeVals t (optChunk t o) = o.toList := by
  cases o <;> simp [takeVals, optChunk]

theorem takeVals_optChunk_ne (t t2 : Nat) (h : (t2 == t) = false)
    (o : Option Nat) : takeVals t (optChunk t2 o) = [] := by
  cases o <;> simp [takeVals, optChunk, h]

theorem takeVals_mintChunk_ne (t : Nat) (h : (20 == t) = false)
    (o : Option (Nat × Nat)) :
    takeVals t (match o with
      | some p => [(20, p.1), (20, p.2)] | none => []) = [] := by
  cases o <;> simp [takeVals, h]

theorem takeVals_mintChunk_self (o : Option (Nat × Nat)) :
    takeVals 20 (match o with
      | some p => [(20, p.1), (20, p.2)] | none => [])
      = (match o with | some p => [p.1, p.2] | none => []) := by
  cases o <;> simp [takeVals]

theorem toList_head (o : Option Nat) : o.toList.head? = o := by
  cases o <;> rfl

theorem takeVal_fc_2 (m : RunestoneM) :
    takeVal 2 (fieldChunks m) = m.etching.map flagsOf := by
  rw [takeVal, fieldChunks]
  simp only [takeVals_append, takeVals_optChunk_self, takeVals_optChunk_ne,
    takeVals_mintChunk_ne, Nat.reduceBEq, List.append_nil, List.nil_append]
  exact toList_head _

theorem takeVal_fc_1 (m : RunestoneM) :
    takeVal 1 (fieldChunks m) = m.etching.bind fun e => e.divisibility := by
  rw [takeVal, fieldChunks]
  simp only [takeVals_append, takeVals_optChunk_self, takeVals_optChunk_ne,
    takeVals_mintChunk_ne, Nat.reduceBEq, List.append_nil, List.nil_append]
  exact toList_head _

theorem takeVal_fc_3 (m : RunestoneM) :
    takeVal 3 (fieldChunks m) = m.etching.bind fun e => e.spacers := by
  rw [takeVal, fieldChunks]
  simp only [takeVals_append, takeVals_optChunk_self, takeVals_optChunk_ne,
    takeVals_mintChunk_ne, Nat.reduceBEq, List.append_nil, List.nil_append]
  exact toList_head _

theorem takeVal_fc_4 (m : RunestoneM) :
    takeVal 4 (fieldChunks m) = m.etching.bind fun e => e.rune := by
  rw [takeVal, fieldChunks]
  simp only [takeVals_append, takeVals_optChunk_self, takeVals_optChunk_ne,
    takeVals_mintChunk_ne, Nat.reduceBEq, List.append_nil, List.nil_append]
  exact toList_head _

theorem takeVal_fc_5 (m : RunestoneM) :
    takeVal 5 (fieldChunks m) = m.etching.bind fun e => e.symbol := by
  rw [takeVal, fieldChunks]
  simp only [takeVals_append, takeVals_optChunk_self, takeVals_optChunk_ne,
    takeVals_mintChunk_ne, Nat.reduceBEq, List.append_nil, List.nil_append]
  exact toList_head _

theorem takeVal_fc_6 (m : RunestoneM) :
    takeVal 6 (fieldChunks m) = m.etching.bind fun e => e.premine := by
  rw [takeVal, fieldChunks]
  simp only [takeVals_append, takeVals_optChunk_self, takeVals_optChunk_ne,
    takeVals_mintChunk_ne, Nat.reduceBEq, List.append_nil, List.nil_append]
  exact toList_head _

theorem takeVal_fc_8 (m : RunestoneM) :
    takeVal 8 (fieldChunks m)
      = m.etching.bind fun e => e.terms.bind fun t => t.cap := by
  rw [takeVal, fieldChunks]
  simp only [takeVals_append, takeVals_optChunk_self, takeVals_optChunk_ne,
    takeVals_mintChunk_ne, Nat.reduceBEq, List.append_nil, List.nil_append]
  exact toList_head _

theorem takeVal_fc_10 (m : RunestoneM) :
    takeVal 10 (fieldChunks m)
      = m.etching.bind fun e => e.terms.bind fun t => t.amount := by
  rw [takeVal, fieldChunks]
  simp only [takeVals_append, takeVals_optChunk_self, takeVals_optChunk_ne,
    takeVals_mintChunk_ne, Nat.reduceBEq, List.append_nil, List.nil_append]
  exact toList_head _

theorem takeVal_fc_12 (m : RunestoneM) :
    takeVal 12 (fieldChunks m)
      = m.etching.bind fun e => e.terms.bind fun t => t.height.1 := by
  rw [takeVal, fieldChunks]
  simp only [takeVals_append, takeVals_optChunk_self, takeVals_optChunk_ne,
    takeVals_mintChunk_ne, Nat.reduceBEq, List.append_nil, List.nil_append]
  exact toList_head _

theorem takeVal_fc_14 (m : RunestoneM) :
    takeVal 14 (fieldChunks m)
      = m.etching.bind fun e => e.terms.bind fun t => t.height.2 := by
  rw [takeVal, fieldChunks]
  simp only [takeVals_append, takeVals_optChunk_self, takeVals_optChunk_ne,
    takeVals_mintChunk_ne, Nat.reduceBEq, List.append_nil, List.nil_append]
  exact toList_head _

theorem takeVal_fc_16 (m : RunestoneM) :
    takeVal 16 (fieldChunks m)
      = m.etching.bind fun e => e.terms.bind fun t => t.offset.1 := by
  rw [takeVal, fieldChunks]
  simp only [takeVals_append, takeVals_optChunk_self, takeVals_optChunk_ne,
    takeVals_mintChunk_ne, Nat.reduceBEq, List.append_nil, List.nil_append]
  exact toList_head _

theorem takeVal_fc_18 (m : RunestoneM) :
    takeVal 18 (fieldChunks m)
      = m.etching.bind fun e => e.terms.bind fun t => t.offset.2 := by
  rw [takeVal, fieldChunks]
  simp only [takeVals_append, takeVals_optChunk_self, takeVals_optChunk_ne,
    takeVals_mintChunk_ne, Nat.reduceBEq, List.append_nil, List.nil_append]
  exact toList_head _

theorem takeVal_fc_22 (m : RunestoneM) :
    takeVal 22 (fieldChunks m) = m.pointer := by
  rw [takeVal, fieldChunks]
  simp only [takeVals_append, takeVals_optChunk_self, takeVals_optChunk_ne,
    takeVals_mintChunk_ne, Nat.reduceBEq, List.append_nil, List.nil_append]
  exact toList_head _

theorem takeTwo_fc_20 (m : RunestoneM) :
    takeTwo 20 (fieldChunks m) = m.mint := by
  rw [takeTwo, fieldChunks]
  simp only [takeVals_append, takeVals_optChunk_self, takeVals_optChunk_ne,
    takeVals_mintChunk_self, Nat.reduceBEq, List.append_nil, List.nil_append]
  cases m.mint <;> rfl

/-! ### A decodable mid-level runestone -/

/-- Every field of the mid-level runestone that `encipher` emits lies in the
domain the decoder accepts, the edicts are sorted and reference outputs of
the host transaction, and the supply invariant holds. -/
def midOkB (m : RunestoneM) (nOuts : Nat) : Bool :=
  optAll (fun p => decide (p.1 ≤ u64MAX ∧ p.2 ≤ u32MAX)) m.mint &&
  optAll (fun p => decide (p < nOuts ∧ p ≤ u32MAX)) m.pointer &&
  m.edicts.all (fun e => decide (e.block ≤ u64MAX ∧ e.tx ≤ u32MAX ∧
    e.amount ≤ u128MAX ∧ e.output ≤ u32MAX ∧ e.output ≤ nOuts ∧
    ¬(e.block = 0 ∧ e.tx ≠ 0))) &&
  sortedMB m.edicts &&
  optAll (fun d => decide (d ≤ 38)) (m.etching.bind fun e => e.divisibility) &&
  optAll (fun v => decide (v ≤ u128MAX)) (m.etching.bind fun e => e.rune) &&
  optAll (fun s => decide (s ≤ u32MAX)) (m.etching.bind fun e => e.spacers) &&
  optAll isValidScalar (m.etching.bind fun e => e.symbol) &&
  optAll (fun p => decide (p ≤ u128MAX)) (m.etching.bind fun e => e.premine) &&
  optAll (fun a => decide (a ≤ u128MAX))
    (m.etching.bind fun e => e.terms.bind fun t => t.amount) &&
  optAll (fun c => decide (c ≤ u128MAX))
    (m.etching.bind fun e => e.terms.bind fun t => t.cap) &&
  optAll (fun x => decide (x ≤ u64MAX))
    (m.etching.bind fun e => e.terms.bind fun t => t.height.1) &&
  optAll (fun x => decide (x ≤ u64MAX))
    (m.etching.bind fun e => e.terms.bind fun t => t.height.2) &&
  optAll (fun x => decide (x ≤ u64MAX))
    (m.etching.bind fun e => e.terms.bind fun t => t.offset.1) &&
  optAll (fun x => decide (x ≤ u64MAX))
    (m.etching.bind fun e => e.terms.bind fun t => t.offset.2) &&
  optAll (fun e => optAll (fun t => decide
    (e.premine.getD 0 + t.amount.getD 0 * t.cap.getD 0 ≤ u128MAX)) e.terms)
    m.etching

theorem mem_optChunk {p : Nat × Nat} {t : Nat} {o : Option Nat}
    (h : p ∈ optChunk t o) : p.1 = t ∧ o = some p.2 := by
  cases o with
  | none => cases h
  | some v =>
    simp only [optChunk, List.mem_singleton] at h
    subst h
    exact ⟨rfl, rfl⟩

theorem optAll_some {α : Type} {f : α → Bool} {o : Option α} {x : α}
    (h : optAll f o = true) (hx : o = some x) : f x = true := by
  rw [hx] at h
  simpa only [optAll] using h

theorem flagsOf_le (e : EtchingM) : flagsOf e ≤ 7 := by
  rw [flagsOf]
  split_ifs <;> omega

theorem le_u128_of_le_u64 {x : Nat} (h : x ≤ u64MAX) : x ≤ u128MAX := by
  simp only [u64MAX] at h
  simp only [u128MAX]
  omega

theorem le_u128_of_le_u32 {x : Nat} (h : x ≤ u32MAX) : x ≤ u128MAX := by
  simp only [u32MAX] at h
  simp only [u128MAX]
  omega

theorem le_u128_small {x : Nat} (h : x ≤ 1114112) : x ≤ u128MAX := by
  simp only [u128MAX]
  omega

/-- Every tag/value pair `encipher` emits for a decodable runestone has a
recognized non-zero tag and a value within `u128`. -/
theorem fieldChunks_props (m : RunestoneM) (nOuts : Nat)
    (h : midOkB m nOuts = true) :
    ∀ p ∈ fieldChunks m, p.1 ≠ 0 ∧
      (p.1 % 2 == 0 && !(recognizedTags.contains p.1)) = false ∧
      p.1 ≤ u128MAX ∧ p.2 ≤ u128MAX := by
  rw [midOkB] at h
  simp only [Bool.and_eq_true] at h
  obtain ⟨⟨⟨⟨⟨⟨⟨⟨⟨⟨⟨⟨⟨⟨⟨hmint, hptr⟩, hed⟩, hsort⟩, hdiv⟩, hrune⟩, hspc⟩,
    hsym⟩, hprem⟩, hamt⟩, hcap⟩, hh1⟩, hh2⟩, ho1⟩, ho2⟩, hsupply⟩ := h
  intro p hp
  simp only [fieldChunks, List.mem_append] at hp
  rcases hp with ((((((((((((hp | hp) | hp) | hp) | hp) | hp) | hp) | hp)
      | hp) | hp) | hp) | hp) | hp) | hp
  · obtain ⟨hp1, hp2⟩ := mem_optChunk hp
    obtain ⟨e, _, hfe⟩ := Option.map_eq_some'.mp hp2
    refine ⟨by rw [hp1]; decide, by rw [hp1]; decide, by rw [hp1]; decide, ?_⟩
    rw [← hfe]
    exact le_u128_small (le_trans (flagsOf_le e) (by omega))
  · obtain ⟨hp1, hp2⟩ := mem_optChunk hp
    have := optAll_some hdiv hp2
    rw [decide_eq_true_eq] at this
    exact ⟨by rw [hp1]; decide, by rw [hp1]; decide, by rw [hp1]; decide,
      le_u128_small (by omega)⟩
  · obtain ⟨hp1, hp2⟩ := mem_optChunk hp
    have := optAll_some hspc hp2
    rw [decide_eq_true_eq] at this
    exact ⟨by rw [hp1]; decide, by rw [hp1]; decide, by rw [hp1]; decide, le_u128_of_le_u32 this⟩
  · obtain ⟨hp1, hp2⟩ := mem_optChunk hp
    have := optAll_some hrune hp2
    rw [decide_eq_true_eq] at this
    exact ⟨by rw [hp1]; decide, by rw [hp1]; decide, by rw [hp1]; decide, this⟩
  · obtain ⟨hp1, hp2⟩ := mem_optChunk hp
    have := optAll_some hsym hp2
    rw [isValidScalar, decide_eq_true_eq] at this
    exact ⟨by rw [hp1]; decide, by rw [hp1]; decide, by rw [hp1]; decide,
      le_u128_small (by omega)⟩
  · obtain ⟨hp1, hp2⟩ := mem_optChunk hp
    have := optAll_some hprem hp2
    rw [decide_eq_true_eq] at this
    exact ⟨by rw [hp1]; decide, by rw [hp1]; decide, by rw [hp1]; decide, this⟩
  · obtain ⟨hp1, hp2⟩ := mem_optChunk hp
    have := optAll_some hcap hp2
    rw [decide_eq_true_eq] at this
    exact ⟨by rw [hp1]; decide, by rw [hp1]; decide, by rw [hp1]; decide, this⟩
  · obtain ⟨hp1, hp2⟩ := mem_optChunk hp
    have := optAll_some hamt hp2
    rw [decide_eq_true_eq] at this
    exact ⟨by rw [hp1]; decide, by rw [hp1]; decide, by rw [hp1]; decide, this⟩
  · obtain ⟨hp1, hp2⟩ := mem_optChunk hp
    have := optAll_some hh1 hp2
    rw [decide_eq_true_eq] at this
    exact ⟨by rw [hp1]; decide, by rw [hp1]; decide, by rw [hp1]; decide, le_u128_of_le_u64 this⟩
  · obtain ⟨hp1, hp2⟩ := mem_optChunk hp
    have := optAll_some hh2 hp2
    rw [decide_eq_true_eq] at this
    exact ⟨by rw [hp1]; decide, by rw [hp1]; decide, by rw [hp1]; decide, le_u128_of_le_u64 this⟩
  · obtain ⟨hp1, hp2⟩ := mem_optChunk hp
    have := optAll_some ho1 hp2
    rw [decide_eq_true_eq] at this
    exact ⟨by rw [hp1]; decide, by rw [hp1]; decide, by rw [hp1]; decide, le_u128_of_le_u64 this⟩
  · obtain ⟨hp1, hp2⟩ := mem_optChunk hp
    have := optAll_some ho2 hp2
    rw [decide_eq_true_eq] at this
    exact ⟨by rw [hp1]; decide, by rw [hp1]; decide, by rw [hp1]; decide, le_u128_of_le_u64 this⟩
  · cases hm : m.mint with
    | none => rw [hm] at hp; cases hp
    | some q =>
      rw [hm] at hp
      have hq := optAll_some hmint hm
      rw [decide_eq_true_eq] at hq
      simp only [List.mem_cons, List.mem_singleton, List.not_mem_nil,
        or_false] at hp
      rcases hp with hp | hp
      · have hp1 : p.1 = 20 := by rw [hp]
        have hp2 : p.2 = q.1 := by rw [hp]
        exact ⟨by rw [hp1]; decide, by rw [hp1]; decide, by rw [hp1]; decide,
          by rw [hp2]; exact le_u128_of_le_u64 hq.1⟩
      · have hp1 : p.1 = 20 := by rw [hp]
        have hp2 : p.2 = q.2 := by rw [hp]
        exact ⟨by rw [hp1]; decide, by rw [hp1]; decide, by rw [hp1]; decide,
          by rw [hp2]; exact le_u128_of_le_u32 hq.2⟩
  · obtain ⟨hp1, hp2⟩ := mem_optChunk hp
    have := optAll_some hptr hp2
    rw [decide_eq_true_eq] at this
    exact ⟨by rw [hp1]; decide, by rw [hp1]; decide, by rw [hp1]; decide,
      le_u128_of_le_u32 this.2⟩

/-! ### Parsing the serialized message back into pairs and body -/

theorem parsePairs_cons (t v : Nat) (rest : List Nat) (h : t ≠ 0) :
    parsePairs (t :: v :: rest) =
      ((t, v) :: (parsePairs rest).1, (parsePairs rest).2.1,
        (parsePairs rest).2.2) := by
  cases t with
  | zero => exact absurd rfl h
  | succ n => rfl

theorem parsePairs_serialize (fields : List (Nat × Nat)) (tail : List Nat)
    (h : ∀ p ∈ fields, p.1 ≠ 0) :
    parsePairs (serializeFields fields ++ 0 :: tail) = (fields, tail, false) := by
  induction fields with
  | nil => simp only [serializeFields, List.nil_append, parsePairs]
  | cons p rest ih =>
    rw [serializeFields, List.cons_append, List.cons_append,
      parsePairs_cons p.1 p.2 _ (h p (by simp)),
      ih (fun q hq => h q (by simp [hq]))]

theorem parsePairs_serialize_nobody (fields : List (Nat × Nat))
    (h : ∀ p ∈ fields, p.1 ≠ 0) :
    parsePairs (serializeFields fields) = (fields, [], false) := by
  induction fields with
  | nil => rfl
  | cons p rest ih =>
    rw [serializeFields,
      parsePairs_cons p.1 p.2 _ (h p (by simp)),
      ih (fun q hq => h q (by simp [hq]))]

theorem hasEven_fieldChunks (m : RunestoneM) (nOuts : Nat)
    (h : midOkB m nOuts = true) :
    hasEvenUnrecognized (fieldChunks m) = false := by
  rw [hasEvenUnrecognized]
  rw [List.any_eq_false]
  intro p hp
  have := (fieldChunks_props m nOuts h p hp).2.1
  simp only [this, Bool.false_eq_true, not_false_eq_true]

/-! ### Delta-encoded edicts decode back -/

theorem decodeEdicts_payload (nOuts : Nat) (l : List EdictM) :
    ∀ pb pt, chainB pb pt l = true →
      (∀ e ∈ l, e.block ≤ u64MAX ∧ e.tx ≤ u32MAX ∧ e.output ≤ u32MAX ∧
        e.output ≤ nOuts ∧ ¬(e.block = 0 ∧ e.tx ≠ 0)) →
      decodeEdicts nOuts pb pt (edictPayload pb pt l) = (l, []) := by
  induction l with
  | nil => intro pb pt _ _; rfl
  | cons e rest ih =>
    intro pb pt hch hb
    rw [chainB, Bool.and_eq_true, decide_eq_true_eq] at hch
    obtain ⟨hord, hch2⟩ := hch
    obtain ⟨hbl, htx, hout, houtN, hid⟩ := hb e (by simp)
    have hpble : pb ≤ e.block := by rcases hord with h1 | ⟨h1, _⟩ <;> omega
    rw [edictPayload]
    simp only [decodeEdicts]
    rw [show pb + (e.block - pb) = e.block by omega]
    rw [if_neg (by omega)]
    have ht : (if e.block - pb = 0 then
        pt + (if e.block = pb then e.tx - pt else e.tx)
      else (if e.block = pb then e.tx - pt else e.tx)) = e.tx := by
      split_ifs with hz hpb hpb
      · have hple : pt ≤ e.tx := by
          rcases hord with h1 | ⟨_, h1⟩ <;> omega
        omega
      · omega
      · omega
      · rfl
    rw [ht]
    rw [if_neg (by omega)]
    rw [if_neg hid]
    rw [if_neg (by omega)]
    rw [ih e.block e.tx hch2 (fun x hx => hb x (by simp [hx]))]

theorem edictPayload_bound (l : List EdictM) :
    ∀ pb pt, (∀ e ∈ l, e.block ≤ u64MAX ∧ e.tx ≤ u32MAX ∧
        e.amount ≤ u128MAX ∧ e.output ≤ u32MAX) →
      ∀ x ∈ edictPayload pb pt l, x ≤ u128MAX := by
  induction l with
  | nil => intro pb pt _ x hx; cases hx
  | cons e rest ih =>
    intro pb pt hb x hx
    obtain ⟨h1, h2, h3, h4⟩ := hb e (by simp)
    rw [edictPayload] at hx
    simp only [List.mem_cons] at hx
    rcases hx with rfl | rfl | rfl | rfl | hx
    · exact le_u128_of_le_u64 (by omega)
    · apply le_u128_of_le_u32
      split_ifs <;> omega
    · exact h3
    · exact le_u128_of_le_u32 h4
    · exact ih e.block e.tx (fun q hq => hb q (by simp [hq])) x hx

theorem optFilter_of_all {o : Option Nat} {p : Nat → Bool}
    (h : optAll p o = true) : o.filter p = o := by
  cases o with
  | none => rfl
  | some x =>
    simp only [optAll] at h
    simp [Option.filter, h]

/-! ### The decoder rebuilds the encoded mid-level runestone -/

theorem buildArtifact_encode (m : RunestoneM) (nOuts : Nat)
    (h : midOkB m nOuts = true) :
    buildArtifact (fieldChunks m, edictPayload 0 0 m.edicts, false) nOuts
      = .runestone m := by
  have hprops := h
  rw [midOkB] at hprops
  simp only [Bool.and_eq_true] at hprops
  obtain ⟨⟨⟨⟨⟨⟨⟨⟨⟨⟨⟨⟨⟨⟨⟨hmint, hptr⟩, hed⟩, hsort⟩, hdiv⟩, hrune⟩, hspc⟩,
    hsym⟩, hprem⟩, hamt⟩, hcap⟩, hh1⟩, hh2⟩, ho1⟩, ho2⟩, hsupply⟩ := hprops
  have hedb : ∀ e ∈ m.edicts, e.block ≤ u64MAX ∧ e.tx ≤ u32MAX ∧
      e.output ≤ u32MAX ∧ e.output ≤ nOuts ∧ ¬(e.block = 0 ∧ e.tx ≠ 0) := by
    intro e he
    have := List.all_eq_true.mp hed e he
    rw [decide_eq_true_eq] at this
    exact ⟨this.1, this.2.1, this.2.2.2.1, this.2.2.2.2.1, this.2.2.2.2.2⟩
  have hep := decodeEdicts_payload nOuts m.edicts 0 0
    (sortedMB_chainB m.edicts hsort) hedb
  have heven := hasEven_fieldChunks m nOuts h
  have hmintEq : (m.mint.bind fun p =>
      if p.1 ≤ u64MAX ∧ p.2 ≤ u32MAX then some p else none) = m.mint := by
    cases hm : m.mint with
    | none => rfl
    | some q =>
      have := optAll_some hmint hm
      rw [decide_eq_true_eq] at this
      simp [this]
  have hpf : (if m.pointer.isSome ∧ m.pointer.getD 0 ≥ nOuts
      then [FlawM.edictOutput] else []) = [] := by
    rw [if_neg]
    rintro ⟨h1, h2⟩
    cases hp : m.pointer with
    | none => rw [hp] at h1; cases h1
    | some q =>
      have := optAll_some hptr hp
      rw [decide_eq_true_eq] at this
      rw [hp] at h2
      simp only [Option.getD_some] at h2
      omega
  obtain ⟨mmint, mptr, meds, metch⟩ := m
  simp only [buildArtifact, takeVal_fc_2, takeVal_fc_1, takeVal_fc_3,
    takeVal_fc_4, takeVal_fc_5, takeVal_fc_6, takeVal_fc_8, takeVal_fc_10,
    takeVal_fc_12, takeVal_fc_14, takeVal_fc_16, takeVal_fc_18,
    takeVal_fc_22, takeTwo_fc_20, hep, heven, hmintEq, hpf]
  cases metch with
  | none => simp +decide [finishArtifact]
  | some e =>
    obtain ⟨ed, er, esp, esy, etm, epr, etb⟩ := e
    dsimp only at hdiv hrune hspc hsym hprem hamt hcap hh1 hh2 ho1 ho2 hsupply
    simp only [Option.some_bind] at hdiv hrune hspc hsym hprem hamt hcap hh1 hh2 ho1 ho2
    simp only [optAll] at hsupply
    dsimp only at hdiv hrune hspc hsym hprem hamt hcap hh1 hh2 ho1 ho2 hsupply
    have hdivEq := optFilter_of_all (p := fun d =>
      decide (d ≤ MAX_DIVISIBILITY)) hdiv
    have hspcEq := optFilter_of_all hspc
    have hsymEq := optFilter_of_all hsym
    cases etm with
    | none =>
      cases etb <;>
        simp +decide [flagsOf, finishArtifact, hdivEq, hspcEq, hsymEq]
    | some t =>
      obtain ⟨ta, tc, th, tof⟩ := t
      obtain ⟨th1, th2⟩ := th
      obtain ⟨to1, to2⟩ := tof
      simp only [Option.some_bind] at hamt hcap hh1 hh2 ho1 ho2
      dsimp only at hamt hcap hh1 hh2 ho1 ho2 hsupply
      have hh1Eq := optFilter_of_all hh1
      have hh2Eq := optFilter_of_all hh2
      have ho1Eq := optFilter_of_all ho1
      have ho2Eq := optFilter_of_all ho2
      simp only [optAll, decide_eq_true_eq] at hsupply
      have hnosup : ¬(ta.getD 0 * tc.getD 0 > u128MAX ∨
          epr.getD 0 + ta.getD 0 * tc.getD 0 > u128MAX) := by
        rw [not_or]
        constructor
        · exact not_lt.mpr (le_trans (Nat.le_add_left _ _) hsupply)
        · exact not_lt.mpr hsupply
      cases etb <;>
        simp +decide [flagsOf, finishArtifact, hdivEq, hspcEq, hsymEq,
          hh1Eq, hh2Eq, ho1Eq, ho2Eq, hnosup]

theorem mem_serializeFields {x : Nat} {l : List (Nat × Nat)}
    (h : x ∈ serializeFields l) : ∃ p ∈ l, x = p.1 ∨ x = p.2 := by
  induction l with
  | nil => cases h
  | cons p rest ih =>
    rw [serializeFields] at h
    simp only [List.mem_cons] at h
    rcases h with rfl | rfl | hx
    · exact ⟨p, by simp, Or.inl rfl⟩
    · exact ⟨p, by simp, Or.inr rfl⟩
    · obtain ⟨q, hq, hxq⟩ := ih hx
      exact ⟨q, by simp [hq], hxq⟩

/-- Every integer of the serialized message of a decodable runestone fits
`u128`, so the varint payload round-trips. -/
theorem messageInts_bound (m : RunestoneM) (nOuts : Nat)
    (h : midOkB m nOuts = true) : ∀ x ∈ messageInts m, x ≤ u128MAX := by
  have hprops := h
  rw [midOkB] at hprops
  simp only [Bool.and_eq_true] at hprops
  obtain ⟨⟨⟨⟨⟨⟨⟨⟨⟨⟨⟨⟨⟨⟨⟨hmint, hptr⟩, hed⟩, hsort⟩, hdiv⟩, hrune⟩, hspc⟩,
    hsym⟩, hprem⟩, hamt⟩, hcap⟩, hh1⟩, hh2⟩, ho1⟩, ho2⟩, hsupply⟩ := hprops
  intro x hx
  rw [messageInts, List.mem_append] at hx
  rcases hx with hx | hx
  · obtain ⟨p, hp, hxp⟩ := mem_serializeFields hx
    have hpr := fieldChunks_props m nOuts h p hp
    rcases hxp with rfl | rfl
    · exact hpr.2.2.1
    · exact hpr.2.2.2
  · rw [sortEdicts_sorted_id m.edicts hsort] at hx
    split_ifs at hx with he
    · cases hx
    · simp only [List.mem_cons] at hx
      rcases hx with rfl | hx
      · exact Nat.zero_le _
      · refine edictPayload_bound m.edicts 0 0 ?_ x hx
        intro e heq
        have := List.all_eq_true.mp hed e heq
        rw [decide_eq_true_eq] at this
        exact ⟨this.1, this.2.1, this.2.2.1, this.2.2.2.1⟩

theorem midOkB_sorted {m : RunestoneM} {nOuts : Nat}
    (h : midOkB m nOuts = true) : sortedMB m.edicts = true := by
  rw [midOkB] at h
  simp only [Bool.and_eq_true] at h
  exact h.1.1.1.1.1.1.1.1.1.1.1.1.2

theorem parsePairs_messageInts (m : RunestoneM) (nOuts : Nat)
    (h : midOkB m nOuts = true) :
    parsePairs (messageInts m)
      = (fieldChunks m, edictPayload 0 0 m.edicts, false) := by
  have htags : ∀ p ∈ fieldChunks m, p.1 ≠ 0 :=
    fun p hp => (fieldChunks_props m nOuts h p hp).1
  rw [messageInts, sortEdicts_sorted_id m.edicts (midOkB_sorted h)]
  cases he : m.edicts.isEmpty with
  | true =>
    rw [List.isEmpty_iff] at he
    simp only [he, List.isEmpty_nil, if_true, List.append_nil]
    rw [parsePairs_serialize_nobody _ htags]
    rfl
  | false =>
    simp only [he, Bool.false_eq_true, if_false]
    exact parsePairs_serialize _ _ htags

/-- Modelled from the spec: deciphering a transaction whose first output
script is `encipher m` yields the runestone `m` back, provided `m` is
decodable with respect to the transaction's output count. -/
theorem decipher_encipher (m : RunestoneM) (pad : List (List Instr))
    (h : midOkB m (pad.length + 1) = true) :
    decipher ⟨encipher m :: pad⟩ = some (.runestone m) := by
  have hfind : (encipher m :: pad).find? isMagicScript = some (encipher m) :=
    List.find?_cons_of_pos _ rfl
  rw [decipher]
  dsimp only
  rw [hfind]
  have hgp : gatherPushes ((encipher m).drop 2)
      = .ok (serializeInts (messageInts m)) := by
    show gatherPushes [.push (serializeInts (messageInts m))] = _
    simp [gatherPushes, Except.map]
  dsimp only
  rw [hgp]
  dsimp only
  rw [decodeAllVarints_serialize _ (messageInts_bound m (pad.length + 1) h)]
  dsimp only
  rw [parsePairs_messageInts m (pad.length + 1) h]
  rw [show (encipher m :: pad).length = pad.length + 1 from by simp]
  rw [buildArtifact_encode m (pad.length + 1) h]

/-! ### Well-formed specs are decodable -/

theorem spacedRuneFromString_val_le (s : List Nat) (v mask : Nat)
    (h : spacedRuneFromString s = .ok (v, mask)) : v ≤ u128MAX := by
  rw [spacedRuneFromString] at h
  cases hp : parseSR s with
  | none => rw [hp] at h; cases h
  | some ps =>
    rw [hp] at h
    cases ps with
    | nil => cases h
    | cons p0 ps0 =>
      dsimp only at h
      split_ifs at h with hv
      cases h
      exact hv

theorem runeValMask_le {o : Option (List Nat)} {p : Nat × Nat}
    (h : runeValMask o = some p) : p.1 ≤ u128MAX ∧ p.2 ≤ u32MAX := by
  cases o with
  | none => cases h
  | some s =>
    rw [runeValMask] at h
    split_ifs at h
    cases hfs : spacedRuneFromString s with
    | error e => rw [hfs] at h; simp [Except.toOption] at h
    | ok q =>
      rw [hfs] at h
      simp only [Except.toOption, Option.some.injEq] at h
      subst h
      exact ⟨spacedRuneFromString_val_le s q.1 q.2 (by rw [hfs]),
        spacedRuneFromString_mask_le s q.1 q.2 (by rw [hfs])⟩

theorem le_foldr_max (l : List Nat) : ∀ x ∈ l, x ≤ l.foldr max 0 := by
  induction l with
  | nil => intro x hx; cases hx
  | cons a rest ih =>
    intro x hx
    rcases List.mem_cons.mp hx with rfl | hx
    · rw [List.foldr_cons]
      exact le_max_left _ _
    · rw [List.foldr_cons]
      exact le_trans (ih x hx) (le_max_right _ _)

theorem edictsSortedB_map {l : List EdictSpec}
    (hb : ∀ e ∈ l, edictInBounds e = true)
    (hs : edictsSortedB l = true) : sortedMB (l.map edictMid) = true := by
  induction l with
  | nil => rfl
  | cons a rest ih =>
    cases rest with
    | nil => rfl
    | cons b rest2 =>
      rw [edictsSortedB, Bool.and_eq_true, decide_eq_true_eq] at hs
      rw [List.map_cons, List.map_cons, sortedMB, Bool.and_eq_true]
      constructor
      · have ha := hb a (by simp)
        have hbb := hb b (by simp)
        rw [edictInBounds] at ha hbb
        simp only [Bool.and_eq_true, intIn, decide_eq_true_eq] at ha hbb
        rw [edictLEb, decide_eq_true_eq]
        simp only [edictMid]
        rcases hs.1 with h1 | ⟨h1, h2⟩
        · left; omega
        · right; omega
      · have := ih (fun e he => hb e (by simp [he])) hs.2
        rw [List.map_cons] at this
        exact this

theorem getD_toNat {o : Option Int} (h0 : ∀ x, o = some x → 0 ≤ x) :
    (((o.map Int.toNat).getD 0 : Nat) : Int) = o.getD 0 := by
  cases o with
  | none => rfl
  | some x =>
    simp only [Option.map_some', Option.getD_some]
    exact Int.toNat_of_nonneg (h0 x rfl)

theorem le_outputsNeeded_edicts (r : RunestoneSpec) :
    ((r.edicts.getD []).map fun e => e.output.toNat).foldr max 0
      ≤ outputsNeeded r := by
  rw [outputsNeeded]
  exact le_trans (le_max_right _ _) (le_max_right _ _)

theorem pointer_lt_outputsNeeded (r : RunestoneSpec) {q : Int}
    (h : r.pointer = some q) : q.toNat < outputsNeeded r := by
  rw [outputsNeeded, h]
  dsimp only
  have h1 := le_max_left (q.toNat + 1)
    (((r.edicts.getD []).map fun e => e.output.toNat).foldr max 0)
  have h2 := le_max_right 1 (max (q.toNat + 1)
    (((r.edicts.getD []).map fun e => e.output.toNat).foldr max 0))
  omega

theorem midOkB_of_wf (r : RunestoneSpec) (h : wellFormedB r = true) :
    midOkB (midOf r) (outputsNeeded r) = true := by
  obtain ⟨rmint, rptr, retch, redicts⟩ := r
  rw [wellFormedB] at h
  simp only [Bool.and_eq_true] at h
  obtain ⟨⟨⟨hib, hne⟩, hedwf⟩, hetchwf⟩ := h
  rw [inBounds] at hib
  simp only [Bool.and_eq_true] at hib
  obtain ⟨⟨⟨hmintB, hptrB⟩, hedB⟩, hetchB⟩ := hib
  have hc1 : optAll (fun p => decide (p.1 ≤ u64MAX ∧ p.2 ≤ u32MAX))
      (rmint.map fun p => (p.1.toNat, p.2.toNat)) = true := by
    cases hm : rmint with
    | none => rfl
    | some q =>
      have := optAll_some hmintB hm
      simp only [Bool.and_eq_true, intIn, decide_eq_true_eq] at this
      simp only [Option.map_some', optAll, decide_eq_true_eq]
      constructor <;> omega
  have hc2 : optAll (fun p => decide
      (p < outputsNeeded ⟨rmint, rptr, retch, redicts⟩ ∧ p ≤ u32MAX))
      (rptr.map Int.toNat) = true := by
    cases hp : rptr with
    | none => rfl
    | some q =>
      have := optAll_some hptrB hp
      simp only [intIn, decide_eq_true_eq] at this
      simp only [Option.map_some', optAll, decide_eq_true_eq]
      exact ⟨pointer_lt_outputsNeeded _ rfl, by omega⟩
  have hedIn : ∀ e0 ∈ redicts.getD [], edictInBounds e0 = true := by
    intro e0 he0
    cases hre : redicts with
    | none => rw [hre] at he0; cases he0
    | some l =>
      rw [hre] at hedB he0
      simp only [optAll, List.all_eq_true] at hedB
      exact hedB e0 he0
  have hedWf : ∀ e0 ∈ redicts.getD [], edictWFb e0 = true := by
    intro e0 he0
    cases hre : redicts with
    | none => rw [hre] at he0; cases he0
    | some l =>
      rw [hre] at hedwf he0
      dsimp only at hedwf
      rw [Bool.and_eq_true, List.all_eq_true] at hedwf
      exact hedwf.1 e0 he0
  have hc3 : (((redicts.getD []).map edictMid).all fun e =>
      decide (e.block ≤ u64MAX ∧ e.tx ≤ u32MAX ∧ e.amount ≤ u128MAX ∧
        e.output ≤ u32MAX ∧
        e.output ≤ outputsNeeded ⟨rmint, rptr, retch, redicts⟩ ∧
        ¬(e.block = 0 ∧ e.tx ≠ 0))) = true := by
    rw [List.all_eq_true]
    intro e he
    rw [List.mem_map] at he
    obtain ⟨e0, he0, rfl⟩ := he
    have hin := hedIn e0 he0
    have hwf0 := hedWf e0 he0
    rw [edictInBounds] at hin
    simp only [Bool.and_eq_true, intIn, decide_eq_true_eq] at hin
    rw [edictWFb] at hwf0
    simp only [Bool.and_eq_true, Bool.not_eq_true'] at hwf0
    have hout : e0.output.toNat ≤ outputsNeeded ⟨rmint, rptr, retch, redicts⟩ := by
      have hmem : e0.output.toNat ∈
          (redicts.getD []).map fun e => e.output.toNat := by
        rw [List.mem_map]
        exact ⟨e0, he0, rfl⟩
      calc e0.output.toNat
          ≤ ((redicts.getD []).map fun e => e.output.toNat).foldr max 0 :=
            le_foldr_max _ _ hmem
        _ ≤ outputsNeeded ⟨rmint, rptr, retch, redicts⟩ :=
            le_outputsNeeded_edicts ⟨rmint, rptr, retch, redicts⟩
    simp only [decide_eq_true_eq, edictMid]
    refine ⟨by omega, by omega, by omega, by omega, hout, ?_⟩
    rintro ⟨hb0, ht0⟩
    have hblock : e0.idBlock = 0 := by omega
    have htx : ¬ e0.idTx = 0 := by omega
    have hflag := hwf0.2
    rw [hblock] at hflag
    simp only [beq_self_eq_true, Bool.true_and, bne_eq_false_iff_eq] at hflag
    exact htx hflag
  have hc4 : sortedMB ((redicts.getD []).map edictMid) = true := by
    cases hre : redicts with
    | none => rfl
    | some l =>
      rw [hre] at hedwf
      dsimp only at hedwf
      rw [Bool.and_eq_true] at hedwf
      have hb : ∀ e ∈ l, edictInBounds e = true := by
        intro e he
        apply hedIn
        rw [hre]
        exact he
      exact edictsSortedB_map hb hedwf.2
  rw [midOkB, midOf]
  dsimp only
  simp only [Bool.and_eq_true]
  cases retch with
  | none =>
    exact ⟨⟨⟨⟨⟨⟨⟨⟨⟨⟨⟨⟨⟨⟨⟨hc1, hc2⟩, hc3⟩, hc4⟩, rfl⟩, rfl⟩, rfl⟩, rfl⟩,
      rfl⟩, rfl⟩, rfl⟩, rfl⟩, rfl⟩, rfl⟩, rfl⟩, rfl⟩
  | some es =>
    dsimp only at hetchwf
    simp only [optAll] at hetchB
    rw [etchingInBounds] at hetchB
    simp only [Bool.and_eq_true] at hetchB
    obtain ⟨⟨hdivB, hpremB⟩, htermsB⟩ := hetchB
    rw [etchingWFb] at hetchwf
    simp only [Bool.and_eq_true] at hetchwf
    obtain ⟨⟨⟨⟨⟨_, hdiv38⟩, hturbo⟩, hrn⟩, hsym⟩, hterms⟩ := hetchwf
    refine ⟨⟨⟨⟨⟨⟨⟨⟨⟨⟨⟨⟨⟨⟨⟨hc1, hc2⟩, hc3⟩, hc4⟩, ?_⟩, ?_⟩, ?_⟩, ?_⟩, ?_⟩,
      ?_⟩, ?_⟩, ?_⟩, ?_⟩, ?_⟩, ?_⟩, ?_⟩
    · -- divisibility
      simp only [Option.map_some', Option.some_bind, etchMid]
      cases hdv : es.divisibility with
      | none => rfl
      | some d =>
        have := optAll_some hdivB hdv
        simp only [intIn, decide_eq_true_eq] at this
        rw [hdv] at hdiv38
        simp only [Option.getD_some, decide_eq_true_eq] at hdiv38
        simp only [Option.map_some', optAll, decide_eq_true_eq]
        omega
    · -- rune value
      simp only [Option.map_some', Option.some_bind, etchMid]
      cases hrv : runeValMask es.runeName with
      | none => rfl
      | some p =>
        simp only [Option.map_some', optAll, decide_eq_true_eq]
        exact (runeValMask_le hrv).1
    · -- spacers
      simp only [Option.map_some', Option.some_bind, etchMid]
      cases hrv : runeValMask es.runeName with
      | none => rfl
      | some p =>
        simp only [Option.some_bind]
        split_ifs with hz
        · simp only [optAll, decide_eq_true_eq]
          exact (runeValMask_le hrv).2
        · rfl
    · -- symbol
      simp only [Option.map_some', Option.some_bind, etchMid]
      cases hsy : es.symbol with
      | none => rfl
      | some s =>
        rw [hsy] at hsym
        dsimp only at hsym
        simp only [Bool.and_eq_true, decide_eq_true_eq] at hsym
        rw [symbolCp]
        rw [if_neg (by
          intro hnil
          rw [hnil] at hsym
          simp at hsym)]
        simp only [optAll]
        exact hsym.2
    · -- premine
      simp only [Option.map_some', Option.some_bind, etchMid]
      cases hpv : es.premine with
      | none => rfl
      | some q =>
        have := optAll_some hpremB hpv
        simp only [intIn, decide_eq_true_eq] at this
        simp only [Option.map_some', optAll, decide_eq_true_eq]
        omega
    · -- amount
      simp only [Option.map_some', Option.some_bind, etchMid]
      cases hts : es.terms with
      | none => rfl
      | some ts =>
        have htB := optAll_some htermsB hts
        rw [termsInBounds] at htB
        simp only [Bool.and_eq_true] at htB
        simp only [Option.map_some', Option.some_bind, termsMid]
        cases ha : ts.amount with
        | none => rfl
        | some a =>
          have := optAll_some htB.1.1.1 ha
          simp only [intIn, decide_eq_true_eq] at this
          simp only [Option.map_some', optAll, decide_eq_true_eq]
          omega
    · -- cap
      simp only [Option.map_some', Option.some_bind, etchMid]
      cases hts : es.terms with
      | none => rfl
      | some ts =>
        have htB := optAll_some htermsB hts
        rw [termsInBounds] at htB
        simp only [Bool.and_eq_true] at htB
        simp only [Option.map_some', Option.some_bind, termsMid]
        cases hc : ts.cap with
        | none => rfl
        | some c =>
          have := optAll_some htB.1.1.2 hc
          simp only [intIn, decide_eq_true_eq] at this
          simp only [Option.map_some', optAll, decide_eq_true_eq]
          omega
    · -- height start
      simp only [Option.map_some', Option.some_bind, etchMid]
      cases hts : es.terms with
      | none => rfl
      | some ts =>
        have htB := optAll_some htermsB hts
        rw [termsInBounds] at htB
        simp only [Bool.and_eq_true] at htB
        simp only [Option.map_some', Option.some_bind, termsMid, rangeMid]
        cases hh : ts.height with
        | none => rfl
        | some hp =>
          have hrB := optAll_some htB.1.2 hh
          rw [rangeInBounds] at hrB
          simp only [Bool.and_eq_true] at hrB
          dsimp only
          cases ha : hp.1 with
          | none => rfl
          | some a =>
            have := optAll_some hrB.1 ha
            simp only [intIn, decide_eq_true_eq] at this
            simp only [Option.map_some', optAll, decide_eq_true_eq]
            omega
    · -- height end
      simp only [Option.map_some', Option.some_bind, etchMid]
      cases hts : es.terms with
      | none => rfl
      | some ts =>
        have htB := optAll_some htermsB hts
        rw [termsInBounds] at htB
        simp only [Bool.and_eq_true] at htB
        simp only [Option.map_some', Option.some_bind, termsMid, rangeMid]
        cases hh : ts.height with
        | none => rfl
        | some hp =>
          have hrB := optAll_some htB.1.2 hh
          rw [rangeInBounds] at hrB
          simp only [Bool.and_eq_true] at hrB
          dsimp only
          cases ha : hp.2 with
          | none => rfl
          | some a =>
            have := optAll_some hrB.2 ha
            simp only [intIn, decide_eq_true_eq] at this
            simp only [Option.map_some', optAll, decide_eq_true_eq]
            omega
    · -- offset start
      simp only [Option.map_some', Option.some_bind, etchMid]
      cases hts : es.terms with
      | none => rfl
      | some ts =>
        have htB := optAll_some htermsB hts
        rw [termsInBounds] at htB
        simp only [Bool.and_eq_true] at htB
        simp only [Option.map_some', Option.some_bind, termsMid, rangeMid]
        cases hh : ts.offset with
        | none => rfl
        | some hp =>
          have hrB := optAll_some htB.2 hh
          rw [rangeInBounds] at hrB
          simp only [Bool.and_eq_true] at hrB
          dsimp only
          cases ha : hp.1 with
          | none => rfl
          | some a =>
            have := optAll_some hrB.1 ha
            simp only [intIn, decide_eq_true_eq] at this
            simp only [Option.map_some', optAll, decide_eq_true_eq]
            omega
    · -- offset end
      simp only [Option.map_some', Option.some_bind, etchMid]
      cases hts : es.terms with
      | none => rfl
      | some ts =>
        have htB := optAll_some htermsB hts
        rw [termsInBounds] at htB
        simp only [Bool.and_eq_true] at htB
        simp only [Option.map_some', Option.some_bind, termsMid, rangeMid]
        cases hh : ts.offset with
        | none => rfl
        | some hp =>
          have hrB := optAll_some htB.2 hh
          rw [rangeInBounds] at hrB
          simp only [Bool.and_eq_true] at hrB
          dsimp only
          cases ha : hp.2 with
          | none => rfl
          | some a =>
            have := optAll_some hrB.2 ha
            simp only [intIn, decide_eq_true_eq] at this
            simp only [Option.map_some', optAll, decide_eq_true_eq]
            omega
    · -- supply invariant
      simp only [Option.map_some', optAll, etchMid]
      cases hts : es.terms with
      | none => rfl
      | some ts =>
        rw [hts] at hterms
        dsimp only at hterms
        rw [termsWFb] at hterms
        simp only [Bool.and_eq_true, decide_eq_true_eq] at hterms
        have hsup := hterms.1.1.2
        have htB := optAll_some htermsB hts
        rw [termsInBounds] at htB
        simp only [Bool.and_eq_true] at htB
        simp only [Option.map_some', optAll, termsMid, decide_eq_true_eq]
        have h0P : ∀ x, es.premine = some x → (0 : Int) ≤ x := by
          intro x hx
          have := optAll_some hpremB hx
          simp only [intIn, decide_eq_true_eq] at this
          exact this.1
        have h0A : ∀ x, ts.amount = some x → (0 : Int) ≤ x := by
          intro x hx
          have := optAll_some htB.1.1.1 hx
          simp only [intIn, decide_eq_true_eq] at this
          exact this.1
        have h0C : ∀ x, ts.cap = some x → (0 : Int) ≤ x := by
          intro x hx
          have := optAll_some htB.1.1.2 hx
          simp only [intIn, decide_eq_true_eq] at this
          exact this.1
        zify
        rw [getD_toNat h0P, getD_toNat h0A, getD_toNat h0C]
        exact hsup

/-! ### `tryDecodeRunestone` rebuilds the original well-formed spec -/

theorem toSpec_midOf (r : RunestoneSpec) (h : wellFormedB r = true) :
    toSpec (midOf r) = r := by
  obtain ⟨rmint, rptr, retch, redicts⟩ := r
  rw [wellFormedB] at h
  simp only [Bool.and_eq_true] at h
  obtain ⟨⟨⟨hib, hne⟩, hedwf⟩, hetchwf⟩ := h
  rw [inBounds] at hib
  simp only [Bool.and_eq_true] at hib
  obtain ⟨⟨⟨hmintB, hptrB⟩, hedB⟩, hetchB⟩ := hib
  rw [toSpec, midOf]
  dsimp only
  simp only [RunestoneSpec.mk.injEq]
  refine ⟨?_, ?_, ?_, ?_⟩
  · -- mint
    cases hm : rmint with
    | none => rfl
    | some q =>
      have := optAll_some hmintB hm
      simp only [Bool.and_eq_true, intIn, decide_eq_true_eq] at this
      simp only [Option.map_some']
      rw [Int.toNat_of_nonneg this.1.1, Int.toNat_of_nonneg this.2.1]
  · -- pointer
    cases hp : rptr with
    | none => rfl
    | some q =>
      have := optAll_some hptrB hp
      simp only [intIn, decide_eq_true_eq] at this
      show some ((q.toNat : Int)) = some q
      rw [Int.toNat_of_nonneg this.1]
  · -- etching
    cases retch with
    | none => rfl
    | some es =>
      dsimp only at hetchwf
      simp only [optAll] at hetchB
      rw [etchingInBounds] at hetchB
      simp only [Bool.and_eq_true] at hetchB
      obtain ⟨⟨hdivB, hpremB⟩, htermsB⟩ := hetchB
      rw [etchingWFb] at hetchwf
      simp only [Bool.and_eq_true] at hetchwf
      obtain ⟨⟨⟨⟨⟨_, hdiv38⟩, hturbo⟩, hrn⟩, hsym⟩, hterms⟩ := hetchwf
      simp only [Option.map_some', Option.some.injEq, etchMid]
      obtain ⟨ed, epr, ern, esy, ets, etb⟩ := es
      dsimp only at hdivB hpremB htermsB hdiv38 hturbo hrn hsym hterms ⊢
      simp only [RuneEtchingSpec.mk.injEq]
      refine ⟨?_, ?_, ?_, ?_, ?_, ?_⟩
      · -- divisibility
        cases hdv : ed with
        | none => rfl
        | some d =>
          have := optAll_some hdivB hdv
          simp only [intIn, decide_eq_true_eq] at this
          show some ((d.toNat : Int)) = some d
          rw [Int.toNat_of_nonneg this.1]
      · -- premine
        cases hpv : epr with
        | none => rfl
        | some q =>
          have := optAll_some hpremB hpv
          simp only [intIn, decide_eq_true_eq] at this
          show some ((q.toNat : Int)) = some q
          rw [Int.toNat_of_nonneg this.1]
      · -- runeName
        cases hrv : ern with
        | none => rfl
        | some s =>
          rw [hrv] at hrn
          dsimp only at hrn
          simp only [Bool.and_eq_true, Bool.not_eq_true',
            beq_eq_false_iff_ne] at hrn
          rw [runeValMask, if_neg hrn.1]
          cases hfs : spacedRuneFromString s with
          | error e =>
            rw [hfs] at hrn
            simp [Except.isOk, Except.toBool] at hrn
          | ok q =>
            simp only [hfs, Except.toOption, Option.map_some',
              Option.some.injEq]
            have hrender := renderSpaced_fromString s q.1 q.2 (by rw [hfs])
            simp only [Option.some_bind]
            by_cases hz : q.2 ≠ 0
            · rw [if_pos hz]
              simp only [Option.getD_some]
              exact hrender
            · rw [if_neg hz]
              simp only [Option.getD_none]
              push_neg at hz
              rw [← hz]
              exact hrender
      · -- symbol
        cases hsy : esy with
        | none => rfl
        | some s =>
          rw [hsy] at hsym
          dsimp only at hsym
          simp only [Bool.and_eq_true, decide_eq_true_eq] at hsym
          rw [symbolCp]
          cases s with
          | nil => simp at hsym
          | cons c tail =>
            have htail : tail = [] := by
              have := hsym.1
              simp only [List.length_cons] at this
              exact List.eq_nil_of_length_eq_zero (by omega)
            subst htail
            rw [if_neg (by simp)]
            rfl
      · -- terms
        cases hts : ets with
        | none => rfl
        | some ts =>
          rw [hts] at hterms
          dsimp only at hterms
          rw [termsWFb] at hterms
          simp only [Bool.and_eq_true, Bool.not_eq_true',
            decide_eq_true_eq] at hterms
          have htB := optAll_some htermsB hts
          rw [termsInBounds] at htB
          simp only [Bool.and_eq_true] at htB
          obtain ⟨⟨⟨haB, hcB⟩, hhB⟩, hoB⟩ := htB
          obtain ⟨ta, tc, th, tof⟩ := ts
          dsimp only at haB hcB hhB hoB hterms ⊢
          simp only [Option.map_some', Option.some.injEq, termsMid]
          simp only [TermsSpec.mk.injEq]
          refine ⟨?_, ?_, ?_, ?_⟩
          · cases ha : ta with
            | none => rfl
            | some a =>
              have := optAll_some haB ha
              simp only [intIn, decide_eq_true_eq] at this
              show some ((a.toNat : Int)) = some a
              rw [Int.toNat_of_nonneg this.1]
          · cases hc : tc with
            | none => rfl
            | some c =>
              have := optAll_some hcB hc
              simp only [intIn, decide_eq_true_eq] at this
              show some ((c.toNat : Int)) = some c
              rw [Int.toNat_of_nonneg this.1]
          · -- height
            cases hh : th with
            | none => rfl
            | some hp =>
              have hrB := optAll_some hhB hh
              rw [rangeInBounds] at hrB
              simp only [Bool.and_eq_true] at hrB
              have hne2 : hp ≠ (none, none) := by
                intro hcon
                rw [hh, hcon] at hterms
                have := hterms.1.2
                simp at this
              rw [rangeMid]
              dsimp only
              rw [if_pos]
              · simp only [Option.some.injEq]
                obtain ⟨hp1, hp2⟩ := hp
                dsimp only at hrB hne2 ⊢
                refine Prod.ext ?_ ?_
                · dsimp only
                  cases h1 : hp1 with
                  | none => rfl
                  | some a =>
                    have := optAll_some hrB.1 h1
                    simp only [intIn, decide_eq_true_eq] at this
                    show some ((a.toNat : Int)) = some a
                    rw [Int.toNat_of_nonneg this.1]
                · dsimp only
                  cases h2 : hp2 with
                  | none => rfl
                  | some a =>
                    have := optAll_some hrB.2 h2
                    simp only [intIn, decide_eq_true_eq] at this
                    show some ((a.toNat : Int)) = some a
                    rw [Int.toNat_of_nonneg this.1]
              · obtain ⟨hp1, hp2⟩ := hp
                cases hp1 with
                | some a => left; simp
                | none =>
                  cases hp2 with
                  | some a => right; simp
                  | none => exact absurd rfl hne2
          · -- offset
            cases hh : tof with
            | none => rfl
            | some hp =>
              have hrB := optAll_some hoB hh
              rw [rangeInBounds] at hrB
              simp only [Bool.and_eq_true] at hrB
              have hne2 : hp ≠ (none, none) := by
                intro hcon
                rw [hh, hcon] at hterms
                have := hterms.2
                simp at this
              rw [rangeMid]
              dsimp only
              rw [if_pos]
              · simp only [Option.some.injEq]
                obtain ⟨hp1, hp2⟩ := hp
                dsimp only at hrB hne2 ⊢
                refine Prod.ext ?_ ?_
                · dsimp only
                  cases h1 : hp1 with
                  | none => rfl
                  | some a =>
                    have := optAll_some hrB.1 h1
                    simp only [intIn, decide_eq_true_eq] at this
                    show some ((a.toNat : Int)) = some a
                    rw [Int.toNat_of_nonneg this.1]
                · dsimp only
                  cases h2 : hp2 with
                  | none => rfl
                  | some a =>
                    have := optAll_some hrB.2 h2
                    simp only [intIn, decide_eq_true_eq] at this
                    show some ((a.toNat : Int)) = some a
                    rw [Int.toNat_of_nonneg this.1]
              · obtain ⟨hp1, hp2⟩ := hp
                cases hp1 with
                | some a => left; simp
                | none =>
                  cases hp2 with
                  | some a => right; simp
                  | none => exact absurd rfl hne2
      · -- turbo
        cases htb : etb with
        | none => rw [htb] at hturbo; cases hturbo
        | some b => rfl
  · -- edicts
    cases redicts with
    | none => rfl
    | some l =>
      have hlne : l ≠ [] := by
        simp only [Bool.not_eq_true', beq_eq_false_iff_ne] at hne
        intro hcon
        rw [hcon] at hne
        exact hne rfl
      have hmap : (l.map edictMid).map (fun e =>
          (⟨(e.block : Int), (e.tx : Int), (e.amount : Int),
            (e.output : Int)⟩ : EdictSpec)) = l := by
        rw [List.map_map]
        have : ∀ e ∈ l, ((fun e =>
            (⟨(e.block : Int), (e.tx : Int), (e.amount : Int),
              (e.output : Int)⟩ : EdictSpec)) ∘ edictMid) e = id e := by
          intro e he
          have hin : edictInBounds e = true := by
            simp only [optAll, List.all_eq_true] at hedB
            exact hedB e he
          rw [edictInBounds] at hin
          simp only [Bool.and_eq_true, intIn, decide_eq_true_eq] at hin
          simp only [Function.comp, edictMid, id]
          obtain ⟨eb, et, ea, eo⟩ := e
          dsimp only at hin ⊢
          simp only [EdictSpec.mk.injEq]
          refine ⟨?_, ?_, ?_, ?_⟩ <;> rw [Int.toNat_of_nonneg (by omega)]
        rw [List.map_congr_left this, List.map_id]
      have hie : (l.map edictMid).isEmpty = false := by
        cases hl : l.map edictMid with
        | nil => exact absurd (List.map_eq_nil_iff.mp hl) hlne
        | cons x xs => rfl
      simp only [Option.getD_some, hie, Bool.false_eq_true, if_false, hmap]

/-- **C1.** For every well-formed `RunestoneSpec` `r`, decoding the encoding
round-trips: `encodeRunestone r` succeeds, and `tryDecodeRunestone` applied
to a transaction whose output script carries the returned bytes yields
`r` itself (as a runestone, not a cenotaph).  `wellFormedB` pins down
"well-formed": every numeric field in its unsigned domain, edicts sorted in
the encoder's canonical order with no reserved `block = 0, tx ≠ 0` id, the
supply invariant `premine + amount·cap ≤ u128::MAX`, a parseable non-empty
rune name, a one-code-point symbol, an explicit `turbo`, and no
present-but-empty `edicts` list or `height`/`offset` range — the
representatives the TypeScript object spreads can reproduce. -/
theorem c1_roundtrip (r : RunestoneSpec) (h : wellFormedB r = true) :
    ∃ out, encodeRunestone r = .ok out ∧
      tryDecodeRunestone (mkTx r out.encodedRunestone)
        = some (.inl r) := by
  refine ⟨⟨encipher (midOf r), commOf r⟩, ?_, ?_⟩
  · rw [encodeRunestone, buildRunestoneM_eval h]
    rfl
  · show tryDecodeRunestone (mkTx r (encipher (midOf r))) = _
    rw [mkTx, tryDecodeRunestone]
    have hok : midOkB (midOf r)
        ((List.replicate (outputsNeeded r - 1) ([] : List Instr)).length + 1)
        = true := by
      have hwf := midOkB_of_wf r h
      have hge : 1 ≤ outputsNeeded r := by
        rw [outputsNeeded]
        exact le_max_left _ _
      rw [List.length_replicate,
        show outputsNeeded r - 1 + 1 = outputsNeeded r by omega]
      exact hwf
    rw [decipher_encipher (midOf r) _ hok]
    simp only [Option.map_some']
    rw [toSpec_midOf r h]

/-- A concrete well-formed spec exercising every field of `c1_roundtrip`. -/
def c1Spec : RunestoneSpec :=
  { mint := some (840000, 1)
    pointer := some 1
    etching := some
      { divisibility := some 2
        premine := some 1000
        runeName := some [65, 66, 8226, 67]
        symbol := some [36]
        terms := some
          { amount := some 10
            cap := some 100
            height := some (some 800000, some 900000)
            offset := none }
        turbo := some true }
    edicts := some [⟨840000, 1, 5, 1⟩] }

theorem c1_witness :
    wellFormedB c1Spec = true ∧
    ∃ out, encodeRunestone c1Spec = .ok out ∧
      tryDecodeRunestone (mkTx c1Spec out.encodedRunestone)
        = some (.inl c1Spec) :=
  ⟨by decide, c1_roundtrip c1Spec (by decide)⟩

end Runestone
